import Mathlib

/-!
# Pangolin `LayerGroup`: layout-tree combinators and visibility

A shallow embedding of `pangolin/gui/layer_group.h`:

* `LayerGroup` (the struct, its fields and their default initialisers),
* `LayerGroup::isShown`, `LayerGroup::show(bool)`,
  `LayerGroup::show(std::shared_ptr<Layer>&, bool)`,
* `intoLayerGroup`, `detail::join`, the operators generated by
  `PANGO_PANEL_OPERATOR` and the variadic `flex`,
* the image conversions of `layer_group.h` and `pangolin/gui/drawn_image.h`,
* `computeLayoutConstraints` and `computeLayoutRegion`, which the header only
  declares: they are modelled from the specification.

A `std::shared_ptr<Layer>` is modelled by `Option Nat`: `none` is `nullptr`,
`some a` is a pointer to the layer object with identity `a`; pointer comparison
is equality of identities.  A `std::vector<LayerGroup>` is a `List LayerGroup`.
-/

namespace Pangolin

/-! ## Data model -/

/-- The enum `LayerGroup::Grouping`. -/
inductive Grouping where
  | stacked
  | tabbed
  | horizontal
  | vertical
  | flex
deriving DecidableEq, Repr

/-- Value of a C++ `double`: a finite number, a signed infinity, or a NaN. -/
inductive Double where
  | fin (q : ℚ)
  | inf (negative : Bool)
  | nan
deriving DecidableEq, Repr

/-- Modelled from the spec: `MinMax<Eigen::Array2i>`, whose declaration is not
among the sources; the spec calls the field holding it the resolved region, the
rectangle assigned to a node.  `none` is the default-constructed value (no
rectangle assigned yet), `some (lo, hi)` a rectangle given by two corners. -/
abbrev Region : Type := Option ((Int × Int) × (Int × Int))

/-- The struct `LayerGroup::LayoutInfo`. -/
structure LayoutInfo where
  min_pix : Int × Int
  parts : Double × Double
  region : Region
deriving DecidableEq, Repr

/-- The default member initialisers of `LayoutInfo`:
`min_pix = {0,0}`, `parts = {0.0f, 0.0f}`, `region` default-constructed. -/
def LayoutInfo.init : LayoutInfo :=
  { min_pix := (0, 0), parts := (Double.fin 0, Double.fin 0), region := none }

/-- The struct `LayerGroup`, fields in declaration order:
`grouping`, `children`, `layer`, `selected_tab`, `show_`, `width_over_height`,
`cached_`. -/
inductive LayerGroup where
  | mk (grouping : Grouping) (children : List LayerGroup) (layer : Option Nat)
      (selected_tab : Nat) (show_ : Bool) (width_over_height : Double)
      (cached_ : LayoutInfo)

namespace LayerGroup

def grouping : LayerGroup → Grouping
  | .mk g _ _ _ _ _ _ => g

def children : LayerGroup → List LayerGroup
  | .mk _ cs _ _ _ _ _ => cs

def layer : LayerGroup → Option Nat
  | .mk _ _ l _ _ _ _ => l

def selected_tab : LayerGroup → Nat
  | .mk _ _ _ st _ _ _ => st

def show_ : LayerGroup → Bool
  | .mk _ _ _ _ sh _ _ => sh

def width_over_height : LayerGroup → Double
  | .mk _ _ _ _ _ w _ => w

def cached_ : LayerGroup → LayoutInfo
  | .mk _ _ _ _ _ _ c => c

/-- Assignment to the field `grouping`. -/
def setGrouping : LayerGroup → Grouping → LayerGroup
  | .mk _ cs l st sh w c, g => .mk g cs l st sh w c

/-- Assignment to the field `children`. -/
def setChildren : LayerGroup → List LayerGroup → LayerGroup
  | .mk g _ l st sh w c, cs => .mk g cs l st sh w c

/-- The constructor `LayerGroup() = default`: every field takes its default
member initialiser (`grouping = horizontal`, `children = {}`,
`layer = nullptr`, `selected_tab = 0`, `show_ = true`,
`width_over_height = 1.0`). -/
def init : LayerGroup :=
  .mk Grouping.horizontal [] none 0 true (Double.fin 1) LayoutInfo.init

/-- The constructor `LayerGroup(Shared<Layer> layer) : layer(layer) {}`; a
`Shared<Layer>` is never null. -/
def ofLayer (l : Nat) : LayerGroup :=
  .mk Grouping.horizontal [] (some l) 0 true (Double.fin 1) LayoutInfo.init

/-- The method `isShown()`: `return show_;`. -/
def isShown (t : LayerGroup) : Bool := t.show_

/-- The method `show(bool visible)`: `show_ = visible;`. -/
def showSelf : LayerGroup → Bool → LayerGroup
  | .mk g cs l st _ w c, visible => .mk g cs l st visible w c

end LayerGroup

mutual
/-- The method `show(std::shared_ptr<Layer>& layer_to_show, bool visible)`:
if `layer == layer_to_show` the node's own flag is set, otherwise the call is
repeated on each child in order. -/
def LayerGroup.showLayer : LayerGroup → Option Nat → Bool → LayerGroup
  | .mk g cs l st sh w c, layer_to_show, visible =>
    if l = layer_to_show then
      LayerGroup.showSelf (.mk g cs l st sh w c) visible
    else
      .mk g (showLayerChildren cs layer_to_show visible) l st sh w c
/-- The loop `for(auto& lg : children) lg.show(layer_to_show, visible);`. -/
def showLayerChildren : List LayerGroup → Option Nat → Bool → List LayerGroup
  | [], _, _ => []
  | lg :: rest, layer_to_show, visible =>
    lg.showLayer layer_to_show visible :: showLayerChildren rest layer_to_show visible
end

/-! ## Building arrangements -/

/-- `intoLayerGroup(const LayerGroup& group)`: `return group;`. -/
def intoLayerGroup (group : LayerGroup) : LayerGroup := group

/-- `intoLayerGroup(const Shared<Layer>& layer)`: `return {layer};`. -/
def intoLayerGroupLayer (layer : Nat) : LayerGroup := LayerGroup.ofLayer layer

/-- The configuration error of spec §7. -/
inductive ConfigError where
  | assertionFailed
deriving DecidableEq, Repr

/-- Modelled from the spec: the macro `PANGO_ASSERT` of
`pangolin/utils/logging.h`, a file that is not among the sources.  Spec §7: a
configuration error is "surfaced as a recoverable result to the caller (not a
process-terminating fault)"; so a check that fails yields an error value and
a check that holds lets the function go on. -/
def PANGO_ASSERT (cond : Bool) : Except ConfigError Unit :=
  if cond then Except.ok () else Except.error ConfigError.assertionFailed

/-- The function `detail::join`. -/
def join (op_type : Grouping) (lhs rhs : LayerGroup) : Except ConfigError LayerGroup := do
  PANGO_ASSERT (decide (lhs.children.length > 0) || lhs.layer.isSome)
  PANGO_ASSERT (decide (rhs.children.length > 0) || rhs.layer.isSome)
  let ret := LayerGroup.init
  let ret := ret.setGrouping op_type
  let ret :=
    if op_type = lhs.grouping ∧ lhs.layer.isSome = false then
      ret.setChildren lhs.children
    else
      ret.setChildren (ret.children ++ [lhs])
  let ret :=
    if op_type = rhs.grouping ∧ rhs.layer.isSome = false then
      ret.setChildren (ret.children ++ rhs.children)
    else
      ret.setChildren (ret.children ++ [rhs])
  return ret

/-- `operator,` : `PANGO_PANEL_OPERATOR(operator PANGO_COMMA, Grouping::tabbed)`. -/
def opComma (lhs rhs : LayerGroup) : Except ConfigError LayerGroup :=
  join Grouping.tabbed (intoLayerGroup lhs) (intoLayerGroup rhs)

/-- `operator|` : `PANGO_PANEL_OPERATOR(operator|, Grouping::horizontal)`. -/
def opBar (lhs rhs : LayerGroup) : Except ConfigError LayerGroup :=
  join Grouping.horizontal (intoLayerGroup lhs) (intoLayerGroup rhs)

/-- `operator/` : `PANGO_PANEL_OPERATOR(operator/, Grouping::vertical)`. -/
def opSlash (lhs rhs : LayerGroup) : Except ConfigError LayerGroup :=
  join Grouping.vertical (intoLayerGroup lhs) (intoLayerGroup rhs)

/-- `operator^` : `PANGO_PANEL_OPERATOR(operator^, Grouping::stacked)`. -/
def opHat (lhs rhs : LayerGroup) : Except ConfigError LayerGroup :=
  join Grouping.stacked (intoLayerGroup lhs) (intoLayerGroup rhs)

/-- The variadic `flex(T head, TArgs... args)`: with no further argument it is
`intoLayerGroup(head)`, otherwise
`detail::join(Grouping::flex, intoLayerGroup(head), flex(args...))`. -/
def flex : LayerGroup → List LayerGroup → Except ConfigError LayerGroup
  | head, [] => Except.ok (intoLayerGroup head)
  | head, next :: args => do
    let tail ← flex next args
    join Grouping.flex (intoLayerGroup head) tail

/-! ## Vocabulary of the specification -/

/-- A node that has a payload or at least one child (the precondition of
`detail::join` on each operand). -/
def LayerGroup.nonEmpty (x : LayerGroup) : Bool :=
  decide (x.children.length > 0) || x.layer.isSome

/-- Leaf: has a payload, no children. -/
def LayerGroup.isLeaf (x : LayerGroup) : Bool :=
  x.layer.isSome && x.children.isEmpty

/-- Composite: at least one child, no payload. -/
def LayerGroup.isComposite (x : LayerGroup) : Bool :=
  !x.layer.isSome && !x.children.isEmpty

/-- What an operand contributes to the child list of a join with grouping `G`:
its own children when it is a Composite of grouping `G`, itself otherwise. -/
def contrib (G : Grouping) (x : LayerGroup) : List LayerGroup :=
  if x.isComposite = true ∧ x.grouping = G then x.children else [x]

mutual
/-- Every node of the tree rooted at the given node, the root first. -/
def LayerGroup.nodes : LayerGroup → List LayerGroup
  | .mk g cs l st sh w c => .mk g cs l st sh w c :: nodesOfList cs
/-- Every node of the trees of a child list, in order. -/
def nodesOfList : List LayerGroup → List LayerGroup
  | [] => []
  | x :: xs => x.nodes ++ nodesOfList xs
end

/-- The node reached from the root by a path of child indices, if there is
one; the empty path reaches the root itself. -/
def nodeAt : List Nat → LayerGroup → Option LayerGroup
  | [], t => some t
  | i :: p, t =>
    match t.children[i]? with
    | some c => nodeAt p c
    | none => none

/-- Modelled from the spec: the rendering gate, whose code is not among the
sources.  Spec §4.4: "a node is actually rendered iff it and all of its
ancestors have `visible == true`".  The node is given by its path from the
root; a path that reaches no node is not rendered. -/
def rendered : List Nat → LayerGroup → Bool
  | [], t => t.isShown
  | i :: p, t =>
    t.isShown &&
      (match t.children[i]? with
       | some c => rendered p c
       | none => false)

/-- The trees built from leaves only with the combinators: a leaf is any node
with a payload and no children (such as `intoLayerGroup` of a layer), and a
tree is built by `operator,`, `operator|`, `operator/`, `operator^` or the
variadic `flex` from operands that are built trees themselves. -/
inductive Built : LayerGroup → Prop where
  | leaf {x : LayerGroup} : x.isLeaf = true → Built x
  | comma {a b r : LayerGroup} : Built a → Built b → opComma a b = Except.ok r → Built r
  | bar {a b r : LayerGroup} : Built a → Built b → opBar a b = Except.ok r → Built r
  | slash {a b r : LayerGroup} : Built a → Built b → opSlash a b = Except.ok r → Built r
  | hat {a b r : LayerGroup} : Built a → Built b → opHat a b = Except.ok r → Built r
  | flex {head : LayerGroup} {args : List LayerGroup} {r : LayerGroup} :
      Built head → (∀ x ∈ args, Built x) → flex head args = Except.ok r → Built r

/-- Every node of the tree is a Leaf or a Composite (the invariant of spec §3). -/
def LayerGroup.wellFormed (t : LayerGroup) : Prop :=
  ∀ n ∈ t.nodes, n.isLeaf = true ∨ n.isComposite = true

/-- The child list `detail::join` computes for one operand, by the test the
code makes (`op_type == x.grouping && !x.layer`). -/
def spliced (G : Grouping) (x : LayerGroup) : List LayerGroup :=
  if G = x.grouping ∧ x.layer.isSome = false then x.children else [x]

/-- A tree is good for `P` when it is non-empty and all its nodes satisfy `P`. -/
def Good (P : LayerGroup → Prop) (t : LayerGroup) : Prop :=
  t.nonEmpty = true ∧ ∀ n ∈ t.nodes, P n

/-! ## Images as leaves (`layer_group.h`, `drawn_image.h`) -/

/-- The conversion `double(n)` of an `int`; every `int` is representable. -/
def Double.ofInt (n : Int) : Double := Double.fin n

/-- Division of two `double`s.  It never traps: a non-zero number divided by
zero is an infinity and `0/0` is NaN.  `rnd` rounds an exact non-zero quotient
to a `double`; a zero numerator gives zero without rounding.  The sign of a
zero is not tracked: a zero stands for `+0.0`, which is what the conversion of
the `int` 0 gives. -/
def Double.div (rnd : ℚ → Double) : Double → Double → Double
  | Double.nan, _ => Double.nan
  | Double.inf _, Double.nan => Double.nan
  | Double.fin _, Double.nan => Double.nan
  | Double.inf _, Double.inf _ => Double.nan
  | Double.inf s, Double.fin q => Double.inf (s != decide (q < 0))
  | Double.fin _, Double.inf _ => Double.fin 0
  | Double.fin p, Double.fin q =>
    if q = 0 then (if p = 0 then Double.nan else Double.inf (decide (p < 0)))
    else if p = 0 then Double.fin 0
    else rnd (p / q)

/-- Assignment to the field `width_over_height`. -/
def LayerGroup.setWidthOverHeight : LayerGroup → Double → LayerGroup
  | .mk g cs l st sh _ c, w => .mk g cs l st sh w c

/-- `intoLayerGroup(const Shared<Drawable>& drawable)`:
`return intoLayerGroup(DrawLayer::Create({.objects = {drawable}}));`.
`DrawLayer::Create` is declared outside the sources; `draw_layer` is the
identity of the layer it creates. -/
def intoLayerGroupDrawable (draw_layer : Nat) : LayerGroup :=
  intoLayerGroupLayer draw_layer

/-- `intoLayerGroup(const sophus::IntensityImage<>& image)`:
the leaf for `DrawnImage::Create({.image=image})`, then
`layer.width_over_height = double(image.width()) / image.height();`.
`draw_layer` is the identity of the layer created for the image, `width` and
`height` are `image.width()` and `image.height()`. -/
def intoLayerGroupImage (rnd : ℚ → Double) (draw_layer : Nat) (width height : Int) :
    LayerGroup :=
  let layer := intoLayerGroupDrawable draw_layer
  layer.setWidthOverHeight (Double.div rnd (Double.ofInt width) (Double.ofInt height))

/-- `LayerTraits<T>::toGroup(const T& image)` for a `ConvertableToImage T`
(`drawn_image.h`).  `group` is the node returned by
`LayerTraits<Shared<DrawLayer>>::toGroup(draw_layer)`, which is declared outside
the sources; `width` and `height` are the fields of `image.imageSize()`. -/
def LayerTraits.toGroup (rnd : ℚ → Double) (group : LayerGroup) (width height : Int) :
    LayerGroup :=
  group.setWidthOverHeight
    (if height > 0 then Double.div rnd (Double.ofInt width) (Double.ofInt height)
     else Double.fin 1)

/-- `LayerTraits<Shared<DrawnImage>>::toGroup(const Shared<DrawnImage>& drawable)`
(`drawn_image.h`).  `group` is the node returned by
`LayerTraits<Shared<Layer>>::toGroup`, which is declared outside the sources;
`imsize` is `drawable->image->imageSize()`, as (width, height). -/
def LayerTraits.toGroupDrawnImage (rnd : ℚ → Double) (group : LayerGroup)
    (imsize : Int × Int) : LayerGroup :=
  group.setWidthOverHeight
    (if imsize.2 > 0 then Double.div rnd (Double.ofInt imsize.1) (Double.ofInt imsize.2)
     else Double.fin 1)

/-! ## The two layout passes (declared in `layer_group.h`, defined elsewhere) -/

/-- One of the two screen axes; the components of an `Eigen::Array2i` or
`Eigen::Array2d`. -/
inductive Axis where
  | x
  | y
deriving DecidableEq, Repr

/-- The component of a pair on an axis. -/
def Axis.get {α : Type} : Axis → α × α → α
  | Axis.x, p => p.1
  | Axis.y, p => p.2

/-- The other axis. -/
def Axis.cross : Axis → Axis
  | Axis.x => Axis.y
  | Axis.y => Axis.x

/-- The pair with `a` on the given axis and `b` on the other one. -/
def Axis.pair {α : Type} : Axis → α → α → α × α
  | Axis.x, a, b => (a, b)
  | Axis.y, a, b => (b, a)

/-- Addition of two `double`s; `rnd` rounds an exact sum to a `double`. -/
def Double.add (rnd : ℚ → Double) : Double → Double → Double
  | Double.nan, _ => Double.nan
  | Double.inf _, Double.nan => Double.nan
  | Double.fin _, Double.nan => Double.nan
  | Double.inf s, Double.inf t => if s = t then Double.inf s else Double.nan
  | Double.inf s, Double.fin _ => Double.inf s
  | Double.fin _, Double.inf t => Double.inf t
  | Double.fin p, Double.fin q => rnd (p + q)

/-- The comparison `a < b` of two `double`s; false when either is NaN. -/
def Double.lt : Double → Double → Bool
  | Double.fin p, Double.fin q => decide (p < q)
  | Double.fin _, Double.inf negative => !negative
  | Double.inf negative, Double.fin _ => negative
  | Double.inf s, Double.inf t => s && !t
  | Double.nan, _ => false
  | Double.fin _, Double.nan => false
  | Double.inf _, Double.nan => false

/-- `std::max(a, b)` on `double`s: `(a < b) ? b : a`. -/
def Double.max (a b : Double) : Double := if Double.lt a b then b else a

/-- The sum of a list of `double`s, from 0.0, left to right. -/
def Double.sum (rnd : ℚ → Double) (xs : List Double) : Double :=
  xs.foldl (Double.add rnd) (Double.fin 0)

/-- The largest of a list of `double`s; 0.0 for the empty list. -/
def Double.maxList : List Double → Double
  | [] => Double.fin 0
  | x :: xs => xs.foldl Double.max x

/-- The largest of a list of integers; 0 for the empty list. -/
def maxInts : List Int → Int
  | [] => 0
  | x :: xs => xs.foldl max x

/-- A pixel rectangle, by its minimum and its maximum corner; its extent on an
axis is the difference of the two corners on that axis. -/
abbrev Rect : Type := (Int × Int) × (Int × Int)

/-- The extent of a rectangle on an axis. -/
def Rect.extent (ax : Axis) (r : Rect) : Int := ax.get r.2 - ax.get r.1

/-- The rectangle `r` with its range on axis `ax` replaced by `[lo, hi]`; the
range on the other axis is kept in full. -/
def Rect.withRange (ax : Axis) (r : Rect) (lo hi : Int) : Rect :=
  (ax.pair lo (ax.cross.get r.1), ax.pair hi (ax.cross.get r.2))

/-- The empty (zero-area) rectangle at the minimum corner of `r`. -/
def Rect.emptyAt (r : Rect) : Rect := (r.1, r.1)

/-- Modelled from the spec: what the two passes take from outside the tree;
neither the passes nor the payload classes are among the sources.
`reportMinSize` and `declaredWeight` are the leaf payload capability of spec
§6 and §4.2 ("reported by payload via `reportMinSize()`", "node's own declared
weight"), by payload identity.  The other fields are what the spec leaves
open: the rounding of `double` sums, the flex packing estimate and grid cells
(§4.2, §4.3), the cross-axis weight of a horizontal or vertical group, and the
rounding to integer pixels of a child's proportional share of the leftover
(§4.3), given the leftover, the child's weight and the total weight. -/
structure LayoutEnv where
  rnd : ℚ → Double
  reportMinSize : Nat → Int × Int
  declaredWeight : Nat → Double × Double
  flexMinSize : List LayerGroup → Int × Int
  flexCell : Rect → Nat → Nat → Rect
  crossWeight : List Double → Double
  share : Int → Double → Double → Int

/-- The configuration error of the constraint pass (spec §4.2): the children
of the named flex group do not share one aspect ratio. -/
inductive ConstraintError where
  | inconsistentAspect (group : LayerGroup)

/-- Modelled from the spec: "all children of a flex group must share a
consistent declared aspect ratio" (§4.2). -/
def aspectConsistent : List LayerGroup → Bool
  | [] => true
  | c :: cs => cs.all (fun d => decide (d.width_over_height = c.width_over_height))

/-- Modelled from the spec: the table of §4.2 for a horizontal or vertical
group with primary axis `ax`, from the children after their own pass:
`min_size` is the sum of the children's on the primary axis and the maximum
on the cross axis, `weight` is the sum of the children's on the primary
axis. -/
def hvConstraints (env : LayoutEnv) (ax : Axis) (cs : List LayerGroup) :
    (Int × Int) × (Double × Double) :=
  (ax.pair (cs.map (fun c => ax.get c.cached_.min_pix)).sum
      (maxInts (cs.map (fun c => ax.cross.get c.cached_.min_pix))),
    ax.pair (Double.sum env.rnd (cs.map (fun c => ax.get c.cached_.parts)))
      (env.crossWeight (cs.map (fun c => ax.cross.get c.cached_.parts))))

/-- Modelled from the spec: the table of §4.2 for a node without payload, by
grouping, from the children after their own pass.  Stacked and tabbed take the
component-wise maximum of `min_size` and the maximum of `weight`; flex takes
the packing estimate and the sum of `weight`. -/
def groupConstraints (env : LayoutEnv) (g : Grouping) (cs : List LayerGroup) :
    (Int × Int) × (Double × Double) :=
  match g with
  | Grouping.horizontal => hvConstraints env Axis.x cs
  | Grouping.vertical => hvConstraints env Axis.y cs
  | Grouping.flex =>
    (env.flexMinSize cs,
      (Double.sum env.rnd (cs.map (fun c => c.cached_.parts.1)),
        Double.sum env.rnd (cs.map (fun c => c.cached_.parts.2))))
  | _ =>
    ((maxInts (cs.map (fun c => c.cached_.min_pix.1)),
        maxInts (cs.map (fun c => c.cached_.min_pix.2))),
      (Double.maxList (cs.map (fun c => c.cached_.parts.1)),
        Double.maxList (cs.map (fun c => c.cached_.parts.2))))

/-- Modelled from the spec: the `min_size` and `weight` of one node (§4.2),
its children having had their own pass: a node with a payload reports through
the payload, any other node aggregates by grouping; a flex group whose
children disagree on the aspect ratio is a configuration error naming the
group. -/
def nodeConstraints (env : LayoutEnv) (g : Grouping) (cs : List LayerGroup)
    (l : Option Nat) (st : Nat) (sh : Bool) (w : Double) (c : LayoutInfo) :
    Except ConstraintError LayerGroup :=
  match l with
  | some a =>
    Except.ok (LayerGroup.mk g cs l st sh w
      { min_pix := env.reportMinSize a, parts := env.declaredWeight a, region := c.region })
  | none =>
    if g = Grouping.flex ∧ aspectConsistent cs = false then
      Except.error (ConstraintError.inconsistentAspect (LayerGroup.mk g cs l st sh w c))
    else
      Except.ok (LayerGroup.mk g cs l st sh w
        { min_pix := (groupConstraints env g cs).1, parts := (groupConstraints env g cs).2,
          region := c.region })

mutual
/-- Modelled from the spec: `computeLayoutConstraints`, the ConstraintPass of
§4.2, of which the sources hold the declaration only.  "Recursion order:
children first, then the node itself, for every node in the tree"; the pass
writes `min_pix` and `parts` of `cached_` and nothing else. -/
def computeLayoutConstraints (env : LayoutEnv) : LayerGroup → Except ConstraintError LayerGroup
  | .mk g cs l st sh w c =>
    match constraintsOfChildren env cs with
    | Except.error e => Except.error e
    | Except.ok cs2 => nodeConstraints env g cs2 l st sh w c
/-- Modelled from the spec: the ConstraintPass on each child, in order
("children first", §4.2). -/
def constraintsOfChildren (env : LayoutEnv) :
    List LayerGroup → Except ConstraintError (List LayerGroup)
  | [] => Except.ok []
  | x :: xs =>
    match computeLayoutConstraints env x with
    | Except.error e => Except.error e
    | Except.ok x2 =>
      match constraintsOfChildren env xs with
      | Except.error e => Except.error e
      | Except.ok xs2 => Except.ok (x2 :: xs2)
end

/-- Modelled from the spec: the primary-axis extents of the children of a
horizontal or vertical group that is assigned the extent `E` (§4.3).  Each
child first receives its own `min_size`; the leftover `E − Σ min_size` is
shared in proportion to the weights, nothing of it when the total weight is
zero; the last child receives what remains of `E`, so that rounding and a
zero total weight both end up with the last child. -/
def hvExtents (env : LayoutEnv) (ax : Axis) (cs : List LayerGroup) (E : Int) : List Int :=
  let leftover := E - (cs.map (fun c => ax.get c.cached_.min_pix)).sum
  let total := Double.sum env.rnd (cs.map (fun c => ax.get c.cached_.parts))
  let wanted := cs.map (fun c =>
    ax.get c.cached_.min_pix +
      (if total = Double.fin 0 then 0 else env.share leftover (ax.get c.cached_.parts) total))
  match wanted with
  | [] => []
  | _ :: _ => wanted.dropLast ++ [E - wanted.dropLast.sum]

/-- Rectangles laid one after the other along axis `ax` from position `pos`,
with the given extents, each with the full cross-axis range of `r`. -/
def placeAlong (ax : Axis) (r : Rect) : Int → List Int → List Rect
  | _, [] => []
  | pos, e :: es => Rect.withRange ax r pos (pos + e) :: placeAlong ax r (pos + e) es

/-- Modelled from the spec: the rectangles of the children of a node without
payload that is assigned `r` (§4.3).  Horizontal and vertical distribute the
primary axis; stacked gives every child the full rectangle; tabbed gives it to
the child at `selected_tab` and an empty region to the others; flex gives the
cells of its grid in row-major order. -/
def childRegions (env : LayoutEnv) (g : Grouping) (selected_tab : Nat)
    (cs : List LayerGroup) (r : Rect) : List Rect :=
  match g with
  | Grouping.horizontal =>
    placeAlong Axis.x r (Axis.x.get r.1) (hvExtents env Axis.x cs (Rect.extent Axis.x r))
  | Grouping.vertical =>
    placeAlong Axis.y r (Axis.y.get r.1) (hvExtents env Axis.y cs (Rect.extent Axis.y r))
  | Grouping.stacked => cs.map (fun _ => r)
  | Grouping.tabbed =>
    (List.range cs.length).map (fun i => if i = selected_tab then r else Rect.emptyAt r)
  | Grouping.flex => (List.range cs.length).map (fun i => env.flexCell r cs.length i)

mutual
/-- Modelled from the spec: `computeLayoutRegion`, the RegionPass of §4.3, of
which the sources hold the declaration only.  It writes `region` of `cached_`
of every node it reaches and reads the `min_pix` and `parts` a ConstraintPass
left there; a node with a payload takes the rectangle as it is.  (The
generation counter that §4.3 asks for has no field in `LayerGroup`.) -/
def computeLayoutRegion (env : LayoutEnv) : LayerGroup → Rect → LayerGroup
  | .mk g cs l st sh w c, region =>
    .mk g
      (regionsOfChildren env cs
        (match l with
         | some _ => []
         | none => childRegions env g st cs region))
      l st sh w { min_pix := c.min_pix, parts := c.parts, region := some region }
/-- Modelled from the spec: the RegionPass on each child with its own
rectangle, in order (§4.3); children without a rectangle are left as they
are. -/
def regionsOfChildren (env : LayoutEnv) : List LayerGroup → List Rect → List LayerGroup
  | [], _ => []
  | x :: xs, [] => x :: xs
  | x :: xs, r :: rs => computeLayoutRegion env x r :: regionsOfChildren env xs rs
end

/-- The primary-axis extent a node has been assigned; 0 before any RegionPass. -/
def LayerGroup.assignedExtent (ax : Axis) (t : LayerGroup) : Int :=
  match t.cached_.region with
  | some r => Rect.extent ax r
  | none => 0

/-- The primary axis of a horizontal or vertical group. -/
def Grouping.primaryAxis : Grouping → Option Axis
  | Grouping.horizontal => some Axis.x
  | Grouping.vertical => some Axis.y
  | _ => none

/-- A rounding policy for the proportional share of §4.3: the floor of
`leftover * w / total`. -/
def floorShare (leftover : Int) (w total : Double) : Int :=
  match w, total with
  | Double.fin a, Double.fin b => Rat.floor ((leftover : ℚ) * a / b)
  | _, _ => 0

/-- Scenario A of spec §8: every leaf reports a minimum of 50 pixels (by 20),
the leaves with payloads 1 and 2 declare weight 1 and the leaf with payload 3
declares weight 2; sums are exact and shares are rounded down. -/
def scenarioEnv : LayoutEnv :=
  { rnd := Double.fin
    reportMinSize := fun _ => (50, 20)
    declaredWeight := fun a =>
      if a = 3 then (Double.fin 2, Double.fin 1) else (Double.fin 1, Double.fin 1)
    flexMinSize := fun _ => (0, 0)
    flexCell := fun r _ _ => r
    crossWeight := Double.maxList
    share := floorShare }

/-- Scenario A of spec §8: three leaves combined horizontally. -/
def scenarioTree : LayerGroup :=
  LayerGroup.mk Grouping.horizontal
    [LayerGroup.ofLayer 1, LayerGroup.ofLayer 2, LayerGroup.ofLayer 3] none 0 true
    (Double.fin 1) LayoutInfo.init

/-- Scenario A of spec §8: the outer region, 400 pixels wide and 100 high. -/
def scenarioRegion : Rect := ((0, 0), (400, 100))

/-! ## Structure of trees -/

theorem nodes_eq (t : LayerGroup) : t.nodes = t :: nodesOfList t.children := by
  cases t with
  | mk g cs l st sh w c => simp [LayerGroup.nodes, LayerGroup.children]

theorem self_mem_nodes (t : LayerGroup) : t ∈ t.nodes := by
  rw [nodes_eq]; exact List.mem_cons_self _ _

theorem mem_nodesOfList {n : LayerGroup} {cs : List LayerGroup} :
    n ∈ nodesOfList cs ↔ ∃ c ∈ cs, n ∈ c.nodes := by
  induction cs with
  | nil => simp [nodesOfList]
  | cons x xs ih => simp [nodesOfList, ih]

theorem mem_nodes_iff {n t : LayerGroup} :
    n ∈ t.nodes ↔ n = t ∨ ∃ c ∈ t.children, n ∈ c.nodes := by
  rw [nodes_eq, List.mem_cons, mem_nodesOfList]

theorem showLayerChildren_eq_map (cs : List LayerGroup) (tgt : Option Nat) (v : Bool) :
    showLayerChildren cs tgt v = cs.map (fun c => c.showLayer tgt v) := by
  induction cs with
  | nil => simp [showLayerChildren]
  | cons x xs ih => simp [showLayerChildren, ih]

/-! ## Closed form of `detail::join` -/

theorem spliced_eq_contrib (G : Grouping) (x : LayerGroup) (hx : x.nonEmpty = true) :
    spliced G x = contrib G x := by
  cases x with
  | mk g cs l st sh w c =>
    cases l with
    | some a => simp [spliced, contrib, LayerGroup.isComposite, LayerGroup.layer]
    | none =>
      cases cs with
      | nil => simp [LayerGroup.nonEmpty, LayerGroup.children, LayerGroup.layer] at hx
      | cons y ys =>
        simp [spliced, contrib, LayerGroup.isComposite, LayerGroup.layer,
          LayerGroup.children, LayerGroup.grouping, eq_comm]

theorem spliced_ne_nil (G : Grouping) (x : LayerGroup) (hx : x.nonEmpty = true) :
    spliced G x ≠ [] := by
  cases x with
  | mk g cs l st sh w c =>
    unfold spliced
    split
    · rename_i h
      cases cs with
      | nil =>
        simp [LayerGroup.nonEmpty, LayerGroup.children, LayerGroup.layer] at hx
        simp [LayerGroup.layer, hx] at h
      | cons y ys => simp [LayerGroup.children]
    · simp

/-- For non-empty operands `detail::join` returns the node with grouping
`op_type`, the two spliced child lists, and every other field at its default. -/
theorem join_ok (G : Grouping) (lhs rhs : LayerGroup)
    (hl : lhs.nonEmpty = true) (hr : rhs.nonEmpty = true) :
    join G lhs rhs =
      Except.ok (LayerGroup.mk G (spliced G lhs ++ spliced G rhs) none 0 true
        (Double.fin 1) LayoutInfo.init) := by
  unfold LayerGroup.nonEmpty at hl hr
  simp only [join, hl, hr, PANGO_ASSERT, spliced, if_true, bind, Except.bind, pure,
    Except.pure]
  split_ifs <;> rfl

theorem spliced_self (G : Grouping) (cs : List LayerGroup) (st : Nat) (sh : Bool)
    (w : Double) (c : LayoutInfo) :
    spliced G (LayerGroup.mk G cs none st sh w c) = cs := by
  simp [spliced, LayerGroup.grouping, LayerGroup.layer, LayerGroup.children]

theorem nonEmpty_of_children_ne_nil (g : Grouping) (cs : List LayerGroup) (l : Option Nat)
    (st : Nat) (sh : Bool) (w : Double) (c : LayoutInfo) (h : cs ≠ []) :
    (LayerGroup.mk g cs l st sh w c).nonEmpty = true := by
  cases cs with
  | nil => exact absurd rfl h
  | cons y ys => simp [LayerGroup.nonEmpty, LayerGroup.children]

/-- An operand that is empty makes `detail::join` fail. -/
theorem join_error_of_empty (G : Grouping) (lhs rhs : LayerGroup)
    (h : lhs.nonEmpty = false ∨ rhs.nonEmpty = false) :
    join G lhs rhs = Except.error ConfigError.assertionFailed := by
  unfold LayerGroup.nonEmpty at h
  rcases h with h | h
  · simp only [join, h, PANGO_ASSERT, bind, Except.bind]
    rfl
  · cases hl : (decide (lhs.children.length > 0) || lhs.layer.isSome) <;>
      simp only [join, h, hl, PANGO_ASSERT, bind, Except.bind] <;> rfl

theorem nonEmpty_eq_false_iff (x : LayerGroup) :
    x.nonEmpty = false ↔ (x.layer = none ∧ x.children = []) := by
  cases x with
  | mk g cs l st sh w c =>
    cases l <;> cases cs <;> simp [LayerGroup.nonEmpty, LayerGroup.layer, LayerGroup.children]

theorem nonEmpty_of_leaf_or_composite (x : LayerGroup)
    (h : x.isLeaf = true ∨ x.isComposite = true) : x.nonEmpty = true := by
  cases x with
  | mk g cs l st sh w c =>
    cases l <;> cases cs <;>
      simp [LayerGroup.nonEmpty, LayerGroup.isLeaf, LayerGroup.isComposite, LayerGroup.layer,
        LayerGroup.children] at h ⊢

theorem nonEmpty_of_wellFormed (x : LayerGroup) (h : x.wellFormed) : x.nonEmpty = true :=
  nonEmpty_of_leaf_or_composite x (h x (self_mem_nodes x))

theorem spliced_length_pos (G : Grouping) (x : LayerGroup) (hx : x.nonEmpty = true) :
    0 < (spliced G x).length :=
  List.length_pos.mpr (spliced_ne_nil G x hx)

/-- Every node below a spliced child is a node of the operand. -/
theorem mem_nodes_of_mem_spliced {G : Grouping} {x c n : LayerGroup}
    (hc : c ∈ spliced G x) (hn : n ∈ c.nodes) : n ∈ x.nodes := by
  unfold spliced at hc
  split at hc
  · exact mem_nodes_iff.mpr (Or.inr ⟨c, hc, hn⟩)
  · rw [List.mem_singleton] at hc
    exact hc ▸ hn

/-- A node with at least one child and no payload satisfies a property of
nodes as soon as its root does and every node of its operands does. -/
theorem join_nodes_all {P : LayerGroup → Prop} (G : Grouping) (a b : LayerGroup)
    (ha : ∀ n ∈ a.nodes, P n) (hb : ∀ n ∈ b.nodes, P n)
    (hroot : P (LayerGroup.mk G (spliced G a ++ spliced G b) none 0 true (Double.fin 1)
      LayoutInfo.init)) :
    ∀ n ∈ (LayerGroup.mk G (spliced G a ++ spliced G b) none 0 true (Double.fin 1)
      LayoutInfo.init).nodes, P n := by
  intro n hn
  rcases mem_nodes_iff.mp hn with h | ⟨c, hc, hnc⟩
  · exact h ▸ hroot
  · rcases List.mem_append.mp hc with h | h
    · exact ha n (mem_nodes_of_mem_spliced h hnc)
    · exact hb n (mem_nodes_of_mem_spliced h hnc)

theorem join_good {P : LayerGroup → Prop}
    (hjoin : ∀ G a b, Good P a → Good P b →
      P (LayerGroup.mk G (spliced G a ++ spliced G b) none 0 true (Double.fin 1)
        LayoutInfo.init))
    {G : Grouping} {a b r : LayerGroup} (ha : Good P a) (hb : Good P b)
    (h : join G a b = Except.ok r) : Good P r := by
  rw [join_ok G a b ha.1 hb.1] at h
  injection h with h
  subst h
  refine ⟨nonEmpty_of_children_ne_nil _ _ _ _ _ _ _ ?_, ?_⟩
  · simp [spliced_ne_nil G a ha.1]
  · exact join_nodes_all G a b ha.2 hb.2 (hjoin G a b ha hb)

theorem flex_good {P : LayerGroup → Prop}
    (hjoin : ∀ G a b, Good P a → Good P b →
      P (LayerGroup.mk G (spliced G a ++ spliced G b) none 0 true (Double.fin 1)
        LayoutInfo.init))
    (args : List LayerGroup) :
    ∀ (head r : LayerGroup), Good P head → (∀ x ∈ args, Good P x) →
      flex head args = Except.ok r → Good P r := by
  induction args with
  | nil =>
    intro head r hh _ h
    simp only [flex, intoLayerGroup] at h
    injection h with h
    exact h ▸ hh
  | cons x xs ih =>
    intro head r hh hargs h
    simp only [flex, intoLayerGroup, bind, Except.bind] at h
    cases hx : flex x xs with
    | error e => rw [hx] at h; cases h
    | ok tl =>
      rw [hx] at h
      have htl : Good P tl :=
        ih x tl (hargs x (List.mem_cons_self _ _))
          (fun y hy => hargs y (List.mem_cons_of_mem _ hy)) hx
      exact join_good hjoin hh htl h

/-- A property of nodes that holds of every leaf made from a layer and of the
root of every join of good operands holds of every node of every built tree. -/
theorem built_good {P : LayerGroup → Prop}
    (hleaf : ∀ x : LayerGroup, x.isLeaf = true → P x)
    (hjoin : ∀ G a b, Good P a → Good P b →
      P (LayerGroup.mk G (spliced G a ++ spliced G b) none 0 true (Double.fin 1)
        LayoutInfo.init))
    {t : LayerGroup} (ht : Built t) : Good P t := by
  induction ht with
  | @leaf x hx =>
    refine ⟨nonEmpty_of_leaf_or_composite x (Or.inl hx), ?_⟩
    intro n hn
    have hcs : x.children = [] := by
      simp only [LayerGroup.isLeaf, Bool.and_eq_true, List.isEmpty_iff] at hx
      exact hx.2
    rw [nodes_eq, hcs] at hn
    simp only [nodesOfList, List.mem_singleton] at hn
    exact hn ▸ hleaf x hx
  | comma _ _ h iha ihb => exact join_good hjoin iha ihb h
  | bar _ _ h iha ihb => exact join_good hjoin iha ihb h
  | slash _ _ h iha ihb => exact join_good hjoin iha ihb h
  | hat _ _ h iha ihb => exact join_good hjoin iha ihb h
  | flex _ _ h ihh ihargs => exact flex_good hjoin _ _ _ ihh ihargs h

/-- One step of the variadic recursion of `flex`. -/
theorem flex_cons_ok (head x : LayerGroup) (xs : List LayerGroup) (tl : LayerGroup)
    (hh : head.nonEmpty = true) (htl : flex x xs = Except.ok tl) (hne : tl.nonEmpty = true) :
    flex head (x :: xs) =
      Except.ok (LayerGroup.mk Grouping.flex
        (spliced Grouping.flex head ++ spliced Grouping.flex tl) none 0 true (Double.fin 1)
        LayoutInfo.init) := by
  simp only [flex, intoLayerGroup, htl, bind, Except.bind]
  exact join_ok Grouping.flex head tl hh hne

/-- With non-empty operands `flex` returns a non-empty node. -/
theorem flex_ok (args : List LayerGroup) :
    ∀ head : LayerGroup, head.nonEmpty = true → (∀ x ∈ args, x.nonEmpty = true) →
      ∃ r, flex head args = Except.ok r ∧ r.nonEmpty = true := by
  induction args with
  | nil =>
    intro head hh _
    exact ⟨head, rfl, hh⟩
  | cons x xs ih =>
    intro head hh hargs
    obtain ⟨tl, htl, htlne⟩ :=
      ih x (hargs x (List.mem_cons_self _ _)) (fun y hy => hargs y (List.mem_cons_of_mem _ hy))
    exact ⟨_, flex_cons_ok head x xs tl hh htl htlne,
      nonEmpty_of_children_ne_nil _ _ _ _ _ _ _ (by simp [spliced_ne_nil _ head hh])⟩

/-! ## Facts about `show` -/

theorem showLayer_children (t : LayerGroup) (tgt : Option Nat) (v : Bool) :
    (t.showLayer tgt v).children =
      if t.layer = tgt then t.children else t.children.map (fun c => c.showLayer tgt v) := by
  cases t with
  | mk g cs l st sh w c =>
    by_cases h : l = tgt
    · simp [LayerGroup.showLayer, h, LayerGroup.showSelf, LayerGroup.children, LayerGroup.layer]
    · simp [LayerGroup.showLayer, h, LayerGroup.children, LayerGroup.layer,
        showLayerChildren_eq_map]

theorem showLayer_show_ (t : LayerGroup) (tgt : Option Nat) (v : Bool) :
    (t.showLayer tgt v).show_ = if t.layer = tgt then v else t.show_ := by
  cases t with
  | mk g cs l st sh w c =>
    by_cases h : l = tgt <;>
      simp [LayerGroup.showLayer, h, LayerGroup.showSelf, LayerGroup.show_, LayerGroup.layer]

/-- The targeted `show` leaves every field of the node it is called on, other
than `show_` and `children`, as it was, and keeps the number of children. -/
theorem showLayer_fields (t : LayerGroup) (tgt : Option Nat) (v : Bool) :
    (t.showLayer tgt v).grouping = t.grouping ∧ (t.showLayer tgt v).layer = t.layer ∧
    (t.showLayer tgt v).selected_tab = t.selected_tab ∧
    (t.showLayer tgt v).width_over_height = t.width_over_height ∧
    (t.showLayer tgt v).cached_ = t.cached_ ∧
    (t.showLayer tgt v).children.length = t.children.length := by
  cases t with
  | mk g cs l st sh w c =>
    by_cases h : l = tgt <;>
      simp [LayerGroup.showLayer, h, LayerGroup.showSelf, LayerGroup.grouping,
        LayerGroup.layer, LayerGroup.selected_tab, LayerGroup.width_over_height,
        LayerGroup.cached_, LayerGroup.children, showLayerChildren_eq_map]

theorem wellFormed_child {t c : LayerGroup} (ht : t.wellFormed) (hc : c ∈ t.children) :
    c.wellFormed :=
  fun n hn => ht n (mem_nodes_iff.mpr (Or.inr ⟨c, hc, hn⟩))

/-- In a tree of Leaves and Composites the targeted `show` with a non-null
target acts on every position of the tree. -/
theorem nodeAt_showLayer (a : Nat) (v : Bool) (p : List Nat) :
    ∀ t : LayerGroup, t.wellFormed →
      nodeAt p (t.showLayer (some a) v) =
        (nodeAt p t).map (fun n => n.showLayer (some a) v) := by
  induction p with
  | nil => intro t _; rfl
  | cons i q ih =>
    intro t ht
    simp only [nodeAt, showLayer_children]
    by_cases h : t.layer = some a
    · have hroot := ht t (self_mem_nodes t)
      have hcs : t.children = [] := by
        rcases hroot with h1 | h1
        · simp only [LayerGroup.isLeaf, Bool.and_eq_true, List.isEmpty_iff] at h1
          exact h1.2
        · simp [LayerGroup.isComposite, h] at h1
      simp [h, hcs]
    · simp only [h, if_false, List.getElem?_map]
      cases hc : t.children[i]? with
      | none => simp
      | some c =>
        simp only [Option.map_some']
        exact ih c (wellFormed_child ht (List.getElem?_mem hc))

/-- The targeted `show`, for any target, leaves at every position either the
node that was there or that node after a targeted `show` of its own. -/
theorem nodeAt_showLayer_cases (tgt : Option Nat) (v : Bool) (p : List Nat) :
    ∀ (t n' : LayerGroup), nodeAt p (t.showLayer tgt v) = some n' →
      ∃ n, nodeAt p t = some n ∧ (n' = n ∨ n' = n.showLayer tgt v) := by
  induction p with
  | nil =>
    intro t n' h
    simp only [nodeAt, Option.some.injEq] at h
    exact ⟨t, rfl, Or.inr h.symm⟩
  | cons i q ih =>
    intro t n' h
    simp only [nodeAt, showLayer_children] at h ⊢
    by_cases hl : t.layer = tgt
    · simp only [hl, if_true] at h
      cases hc : t.children[i]? with
      | none => rw [hc] at h; cases h
      | some c =>
        rw [hc] at h
        exact ⟨n', h, Or.inl rfl⟩
    · simp only [hl, if_false, List.getElem?_map] at h
      cases hc : t.children[i]? with
      | none => rw [hc] at h; cases h
      | some c =>
        rw [hc] at h
        exact ih c n' h

theorem nodeAt_showSelf_cons (t : LayerGroup) (v : Bool) (i : Nat) (q : List Nat) :
    nodeAt (i :: q) (t.showSelf v) = nodeAt (i :: q) t := by
  cases t with
  | mk g cs l st sh w c => rfl

theorem rendered_showSelf_false (t : LayerGroup) (p : List Nat) :
    rendered p (t.showSelf false) = false := by
  cases t with
  | mk g cs l st sh w c =>
    cases p <;> simp [rendered, LayerGroup.showSelf, LayerGroup.isShown, LayerGroup.show_]

theorem showSelf_showSelf (t : LayerGroup) (u v : Bool) :
    (t.showSelf u).showSelf v = t.showSelf v := by
  cases t with
  | mk g cs l st sh w c => rfl

theorem showSelf_of_isShown (t : LayerGroup) : t.showSelf t.isShown = t := by
  cases t with
  | mk g cs l st sh w c => rfl

/-! ## The combinators -/

/-- C1 (flatten law): for every grouping `G` and non-empty operands `a`, `b`,
`c`, `detail::join(G, join(G, a, b), c)` and `detail::join(G, a, join(G, b, c))`
both return a node and it is the same node; and for three leaves `A`, `B`, `C`
both `(A|B)|C` and `A|(B|C)` are the horizontal node whose child list is exactly
`[A, B, C]`. -/
theorem join_flatten_law (G : Grouping) (a b c : LayerGroup)
    (ha : a.nonEmpty = true) (hb : b.nonEmpty = true) (hc : c.nonEmpty = true) :
    (∃ ab bc r, join G a b = Except.ok ab ∧ join G b c = Except.ok bc ∧
        join G ab c = Except.ok r ∧ join G a bc = Except.ok r) ∧
    (∀ A B C : Nat, ∃ ab bc,
        opBar (intoLayerGroupLayer A) (intoLayerGroupLayer B) = Except.ok ab ∧
        opBar (intoLayerGroupLayer B) (intoLayerGroupLayer C) = Except.ok bc ∧
        opBar ab (intoLayerGroupLayer C) =
          Except.ok (LayerGroup.mk Grouping.horizontal
            [intoLayerGroupLayer A, intoLayerGroupLayer B, intoLayerGroupLayer C]
            none 0 true (Double.fin 1) LayoutInfo.init) ∧
        opBar (intoLayerGroupLayer A) bc =
          Except.ok (LayerGroup.mk Grouping.horizontal
            [intoLayerGroupLayer A, intoLayerGroupLayer B, intoLayerGroupLayer C]
            none 0 true (Double.fin 1) LayoutInfo.init)) := by
  constructor
  · have hab : spliced G a ++ spliced G b ≠ [] := by
      simp [spliced_ne_nil G a ha]
    have hbc : spliced G b ++ spliced G c ≠ [] := by
      simp [spliced_ne_nil G b hb]
    refine ⟨_, _,
      LayerGroup.mk G (spliced G a ++ spliced G b ++ spliced G c) none 0 true (Double.fin 1)
        LayoutInfo.init,
      join_ok G a b ha hb, join_ok G b c hb hc, ?_, ?_⟩
    · rw [join_ok G _ c (nonEmpty_of_children_ne_nil _ _ _ _ _ _ _ hab) hc, spliced_self]
    · rw [join_ok G a _ ha (nonEmpty_of_children_ne_nil _ _ _ _ _ _ _ hbc), spliced_self,
        List.append_assoc]
  · intro A B C
    exact ⟨_, _, rfl, rfl, rfl, rfl⟩

theorem join_flatten_law_witness :
    (∃ ab bc r,
        join Grouping.vertical
          (LayerGroup.mk Grouping.vertical [LayerGroup.ofLayer 1, LayerGroup.ofLayer 2] none 0
            true (Double.fin 1) LayoutInfo.init)
          (LayerGroup.ofLayer 3) = Except.ok ab ∧
        join Grouping.vertical (LayerGroup.ofLayer 3)
          (LayerGroup.mk Grouping.horizontal [LayerGroup.ofLayer 4] none 0 true (Double.fin 1)
            LayoutInfo.init) = Except.ok bc ∧
        join Grouping.vertical ab
          (LayerGroup.mk Grouping.horizontal [LayerGroup.ofLayer 4] none 0 true (Double.fin 1)
            LayoutInfo.init) = Except.ok r ∧
        join Grouping.vertical
          (LayerGroup.mk Grouping.vertical [LayerGroup.ofLayer 1, LayerGroup.ofLayer 2] none 0
            true (Double.fin 1) LayoutInfo.init) bc = Except.ok r) :=
  (join_flatten_law Grouping.vertical
    (LayerGroup.mk Grouping.vertical [LayerGroup.ofLayer 1, LayerGroup.ofLayer 2] none 0
      true (Double.fin 1) LayoutInfo.init)
    (LayerGroup.ofLayer 3)
    (LayerGroup.mk Grouping.horizontal [LayerGroup.ofLayer 4] none 0 true (Double.fin 1)
      LayoutInfo.init) rfl rfl rfl).1

/-- C2 (auto-flatten rule): for every grouping `G` and non-empty operands
`lhs`, `rhs`, `detail::join(G, lhs, rhs)` returns a node whose child list is
`contrib(lhs)` followed by `contrib(rhs)`: an operand that is a Composite of
grouping `G` contributes its own children in their order, any other operand
contributes itself, unchanged, as one child. -/
theorem join_children_contrib (G : Grouping) (lhs rhs : LayerGroup)
    (hl : lhs.nonEmpty = true) (hr : rhs.nonEmpty = true) :
    ∃ r, join G lhs rhs = Except.ok r ∧ r.children = contrib G lhs ++ contrib G rhs := by
  refine ⟨_, join_ok G lhs rhs hl hr, ?_⟩
  rw [spliced_eq_contrib G lhs hl, spliced_eq_contrib G rhs hr]
  rfl

theorem join_children_contrib_witness :
    ∃ r, join Grouping.tabbed
          (LayerGroup.mk Grouping.tabbed [LayerGroup.ofLayer 1, LayerGroup.ofLayer 2] none 0
            false (Double.fin 2) LayoutInfo.init)
          (LayerGroup.mk Grouping.stacked [LayerGroup.ofLayer 3] none 0 true (Double.fin 1)
            LayoutInfo.init) = Except.ok r ∧
      r.children =
        [LayerGroup.ofLayer 1, LayerGroup.ofLayer 2,
          LayerGroup.mk Grouping.stacked [LayerGroup.ofLayer 3] none 0 true (Double.fin 1)
            LayoutInfo.init] :=
  join_children_contrib Grouping.tabbed
    (LayerGroup.mk Grouping.tabbed [LayerGroup.ofLayer 1, LayerGroup.ofLayer 2] none 0
      false (Double.fin 2) LayoutInfo.init)
    (LayerGroup.mk Grouping.stacked [LayerGroup.ofLayer 3] none 0 true (Double.fin 1)
      LayoutInfo.init) rfl rfl

/-- C3 (the combinators preserve the Leaf-xor-Composite invariant): for every
grouping `G` and operands `lhs`, `rhs` in which every node is a Leaf or a
Composite, `detail::join(G, lhs, rhs)` returns a node that has no payload, at
least two children and grouping `G`, and in which every node is again a Leaf
or a Composite; the grouping is tabbed for `operator,`, horizontal for
`operator|`, vertical for `operator/` and stacked for `operator^`. -/
theorem join_preserves_leaf_xor_composite (G : Grouping) (lhs rhs : LayerGroup)
    (hl : lhs.wellFormed) (hr : rhs.wellFormed) :
    (∃ r, join G lhs rhs = Except.ok r ∧ r.layer = none ∧ 2 ≤ r.children.length ∧
        r.grouping = G ∧ r.wellFormed) ∧
    (∃ r, opComma lhs rhs = Except.ok r ∧ r.grouping = Grouping.tabbed) ∧
    (∃ r, opBar lhs rhs = Except.ok r ∧ r.grouping = Grouping.horizontal) ∧
    (∃ r, opSlash lhs rhs = Except.ok r ∧ r.grouping = Grouping.vertical) ∧
    (∃ r, opHat lhs rhs = Except.ok r ∧ r.grouping = Grouping.stacked) := by
  have hln := nonEmpty_of_wellFormed lhs hl
  have hrn := nonEmpty_of_wellFormed rhs hr
  have hlen : ∀ G', 2 ≤ (spliced G' lhs ++ spliced G' rhs).length := by
    intro G'
    have h1 := spliced_length_pos G' lhs hln
    have h2 := spliced_length_pos G' rhs hrn
    rw [List.length_append]
    omega
  refine ⟨⟨_, join_ok G lhs rhs hln hrn, rfl, hlen G, rfl, ?_⟩,
    ⟨_, join_ok _ lhs rhs hln hrn, rfl⟩, ⟨_, join_ok _ lhs rhs hln hrn, rfl⟩,
    ⟨_, join_ok _ lhs rhs hln hrn, rfl⟩, ⟨_, join_ok _ lhs rhs hln hrn, rfl⟩⟩
  apply join_nodes_all G lhs rhs hl hr
  right
  have h := hlen G
  cases hs : spliced G lhs ++ spliced G rhs with
  | nil => rw [hs] at h; simp at h
  | cons y ys => simp [LayerGroup.isComposite, LayerGroup.layer, LayerGroup.children]

theorem join_preserves_leaf_xor_composite_witness :
    ∃ r, join Grouping.stacked
          (LayerGroup.mk Grouping.stacked [LayerGroup.ofLayer 1, LayerGroup.ofLayer 2] none 0
            true (Double.fin 1) LayoutInfo.init)
          (LayerGroup.ofLayer 3) = Except.ok r ∧
      r.layer = none ∧ 2 ≤ r.children.length ∧ r.grouping = Grouping.stacked ∧ r.wellFormed :=
  (join_preserves_leaf_xor_composite Grouping.stacked
    (LayerGroup.mk Grouping.stacked [LayerGroup.ofLayer 1, LayerGroup.ofLayer 2] none 0
      true (Double.fin 1) LayoutInfo.init)
    (LayerGroup.ofLayer 3)
    (by unfold LayerGroup.wellFormed; decide)
    (by unfold LayerGroup.wellFormed; decide)).1

/-- C4 (no nested chain): in every tree built from leaves only with the
combinators (`operator,`, `operator|`, `operator/`, `operator^` and `flex`), no
Composite node has a child that is itself a Composite with the same grouping
as its parent. -/
theorem built_no_same_grouping_nesting (t : LayerGroup) (ht : Built t) :
    ∀ n ∈ t.nodes, n.isComposite = true →
      ∀ c ∈ n.children, ¬ (c.isComposite = true ∧ c.grouping = n.grouping) := by
  have key : Good (fun n : LayerGroup =>
      ∀ c ∈ n.children, ¬ (c.isComposite = true ∧ c.grouping = n.grouping)) t := by
    refine built_good ?_ ?_ ht
    · intro x hx c hc
      simp only [LayerGroup.isLeaf, Bool.and_eq_true, List.isEmpty_iff] at hx
      rw [hx.2] at hc
      cases hc
    · intro G a b ha hb c hc hcc
      have side : ∀ x : LayerGroup,
          (∀ n ∈ x.nodes, ∀ c ∈ n.children,
            ¬ (c.isComposite = true ∧ c.grouping = n.grouping)) →
          c ∈ spliced G x → False := by
        intro x hx hmem
        unfold spliced at hmem
        split at hmem
        · rename_i hcond
          exact hx x (self_mem_nodes x) c hmem ⟨hcc.1, hcc.2.trans hcond.1⟩
        · rename_i hcond
          rw [List.mem_singleton] at hmem
          subst hmem
          apply hcond
          refine ⟨hcc.2.symm, ?_⟩
          have h1 := hcc.1
          simp only [LayerGroup.isComposite, Bool.and_eq_true, Bool.not_eq_true'] at h1
          exact h1.1
      simp only [LayerGroup.children] at hc
      rcases List.mem_append.mp hc with h | h
      · exact side a ha.2 h
      · exact side b hb.2 h
  intro n hn _
  exact key.2 n hn

theorem built_no_same_grouping_nesting_witness :
    ¬ ((LayerGroup.mk Grouping.horizontal [LayerGroup.ofLayer 1, LayerGroup.ofLayer 2] none 0
          true (Double.fin 1) LayoutInfo.init).isComposite = true ∧
        (LayerGroup.mk Grouping.horizontal [LayerGroup.ofLayer 1, LayerGroup.ofLayer 2] none 0
          true (Double.fin 1) LayoutInfo.init).grouping =
        (LayerGroup.mk Grouping.vertical
          [LayerGroup.mk Grouping.horizontal [LayerGroup.ofLayer 1, LayerGroup.ofLayer 2] none
              0 true (Double.fin 1) LayoutInfo.init,
            LayerGroup.ofLayer 3]
          none 0 true (Double.fin 1) LayoutInfo.init).grouping) :=
  built_no_same_grouping_nesting
    (LayerGroup.mk Grouping.vertical
      [LayerGroup.mk Grouping.horizontal [LayerGroup.ofLayer 1, LayerGroup.ofLayer 2] none
          0 true (Double.fin 1) LayoutInfo.init,
        LayerGroup.ofLayer 3]
      none 0 true (Double.fin 1) LayoutInfo.init)
    (Built.slash
      (Built.bar (a := LayerGroup.ofLayer 1) (b := LayerGroup.ofLayer 2)
        (r := LayerGroup.mk Grouping.horizontal [LayerGroup.ofLayer 1, LayerGroup.ofLayer 2]
          none 0 true (Double.fin 1) LayoutInfo.init) (Built.leaf rfl) (Built.leaf rfl) rfl)
      (Built.leaf (x := LayerGroup.ofLayer 3) rfl) rfl)
    _ (self_mem_nodes _) rfl _ (List.mem_cons_self _ _)

/-- C5 (empty operand): for every grouping `G`, `detail::join(G, lhs, rhs)`
returns an error to the caller if and only if `lhs` or `rhs` is empty, that is
has neither a payload nor any child; for two non-empty operands it returns a
node. -/
theorem join_error_iff_empty_operand (G : Grouping) (lhs rhs : LayerGroup) :
    ((∃ e, join G lhs rhs = Except.error e) ↔
      ((lhs.layer = none ∧ lhs.children = []) ∨ (rhs.layer = none ∧ rhs.children = []))) ∧
    (¬ (lhs.layer = none ∧ lhs.children = []) → ¬ (rhs.layer = none ∧ rhs.children = []) →
      ∃ r, join G lhs rhs = Except.ok r) := by
  rw [← nonEmpty_eq_false_iff, ← nonEmpty_eq_false_iff]
  constructor
  · constructor
    · rintro ⟨e, he⟩
      cases hl : lhs.nonEmpty with
      | false => exact Or.inl rfl
      | true =>
        cases hr : rhs.nonEmpty with
        | false => exact Or.inr rfl
        | true => rw [join_ok G lhs rhs hl hr] at he; cases he
    · intro h
      exact ⟨_, join_error_of_empty G lhs rhs h⟩
  · intro hl hr
    exact ⟨_, join_ok G lhs rhs (by simpa using hl) (by simpa using hr)⟩

theorem join_error_iff_empty_operand_witness :
    (∃ e, join Grouping.horizontal LayerGroup.init (LayerGroup.ofLayer 1) = Except.error e) ∧
    (∃ r, join Grouping.horizontal (LayerGroup.ofLayer 1) (LayerGroup.ofLayer 2) =
      Except.ok r) :=
  ⟨(join_error_iff_empty_operand Grouping.horizontal LayerGroup.init
      (LayerGroup.ofLayer 1)).1.mpr (Or.inl ⟨rfl, rfl⟩),
    (join_error_iff_empty_operand Grouping.horizontal (LayerGroup.ofLayer 1)
      (LayerGroup.ofLayer 2)).2 (fun h => nomatch h.1) (fun h => nomatch h.1)⟩

/-! ## Visibility -/

/-- C6 (targeted show reaches every matching leaf): in a tree in which each
node is a Leaf or a Composite, for every non-null target payload `a` and every
boolean `v`, after `show(a, v)` on the root every Leaf whose payload is `a`
has `visible == v`, at whatever depth it lies and however many there are: each
position that held such a leaf before holds it afterwards with the flag set,
and every leaf with that payload found in the tree afterwards has the flag
set. -/
theorem showLayer_sets_every_matching_leaf (t : LayerGroup) (hwf : t.wellFormed)
    (a : Nat) (v : Bool) :
    (∀ (p : List Nat) (n : LayerGroup), nodeAt p t = some n → n.isLeaf = true →
      n.layer = some a →
      ∃ m, nodeAt p (t.showLayer (some a) v) = some m ∧ m.isLeaf = true ∧
        m.layer = some a ∧ m.isShown = v) ∧
    (∀ (p : List Nat) (m : LayerGroup), nodeAt p (t.showLayer (some a) v) = some m →
      m.isLeaf = true → m.layer = some a → m.isShown = v) := by
  constructor
  · intro p n hn hleaf hlayer
    refine ⟨n.showLayer (some a) v, ?_, ?_, ?_, ?_⟩
    · rw [nodeAt_showLayer a v p t hwf, hn]; rfl
    · have hf := showLayer_fields n (some a) v
      have hc := showLayer_children n (some a) v
      simp only [LayerGroup.isLeaf, Bool.and_eq_true, List.isEmpty_iff] at hleaf ⊢
      rw [hf.2.1, hc, hleaf.2]
      simp [hleaf.1]
    · rw [(showLayer_fields n (some a) v).2.1, hlayer]
    · rw [LayerGroup.isShown, showLayer_show_, if_pos hlayer]
  · intro p m hm _ hlayer
    rw [nodeAt_showLayer a v p t hwf] at hm
    cases hn : nodeAt p t with
    | none => rw [hn] at hm; cases hm
    | some n =>
      rw [hn] at hm
      simp only [Option.map_some', Option.some.injEq] at hm
      subst hm
      rw [(showLayer_fields n (some a) v).2.1] at hlayer
      rw [LayerGroup.isShown, showLayer_show_, if_pos hlayer]

theorem showLayer_sets_every_matching_leaf_witness :
    ∃ m, nodeAt [1, 0]
        ((LayerGroup.mk Grouping.horizontal
          [LayerGroup.ofLayer 1,
            LayerGroup.mk Grouping.vertical [LayerGroup.ofLayer 1, LayerGroup.ofLayer 2] none 0
              true (Double.fin 1) LayoutInfo.init]
          none 0 true (Double.fin 1) LayoutInfo.init).showLayer (some 1) false) = some m ∧
      m.isLeaf = true ∧ m.layer = some 1 ∧ m.isShown = false :=
  (showLayer_sets_every_matching_leaf
    (LayerGroup.mk Grouping.horizontal
      [LayerGroup.ofLayer 1,
        LayerGroup.mk Grouping.vertical [LayerGroup.ofLayer 1, LayerGroup.ofLayer 2] none 0
          true (Double.fin 1) LayoutInfo.init]
      none 0 true (Double.fin 1) LayoutInfo.init)
    (by unfold LayerGroup.wellFormed; decide) 1 false).1 [1, 0] (LayerGroup.ofLayer 1)
    rfl rfl rfl

/-- C7, the code at a null target: on a horizontal Composite of two leaves,
which is shown, `show(nullptr, false)` compares the root's own null `layer`
with the null target, finds them equal and clears the root's flag; the claim
says the flag of every Composite is unchanged. -/
theorem showLayer_null_target_hides_composite_root :
    (LayerGroup.mk Grouping.horizontal [LayerGroup.ofLayer 1, LayerGroup.ofLayer 2] none 0
      true (Double.fin 1) LayoutInfo.init).isComposite = true ∧
    (LayerGroup.mk Grouping.horizontal [LayerGroup.ofLayer 1, LayerGroup.ofLayer 2] none 0
      true (Double.fin 1) LayoutInfo.init).isShown = true ∧
    ((LayerGroup.mk Grouping.horizontal [LayerGroup.ofLayer 1, LayerGroup.ofLayer 2] none 0
      true (Double.fin 1) LayoutInfo.init).showLayer none false).isShown = false :=
  ⟨rfl, rfl, rfl⟩

/-- The frame of the targeted `show`, for every tree, every target and every
boolean: the tree afterwards has at each position a node with the grouping,
payload, selected tab, aspect ratio, cache and number of children of the node
that was there, and with the same flag whenever that node's `layer` differs
from the target. -/
theorem showLayer_frame (t : LayerGroup) (tgt : Option Nat) (v : Bool) (p : List Nat)
    (m : LayerGroup) (hm : nodeAt p (t.showLayer tgt v) = some m) :
    ∃ n, nodeAt p t = some n ∧ m.grouping = n.grouping ∧ m.layer = n.layer ∧
      m.selected_tab = n.selected_tab ∧ m.width_over_height = n.width_over_height ∧
      m.cached_ = n.cached_ ∧ m.children.length = n.children.length ∧
      (n.layer ≠ tgt → m.isShown = n.isShown) := by
  obtain ⟨n, hn, h | h⟩ := nodeAt_showLayer_cases tgt v p t m hm
  · subst h
    exact ⟨m, hn, rfl, rfl, rfl, rfl, rfl, rfl, fun _ => rfl⟩
  · subst h
    obtain ⟨h1, h2, h3, h4, h5, h6⟩ := showLayer_fields n tgt v
    refine ⟨n, hn, h1, h2, h3, h4, h5, h6, ?_⟩
    intro hne
    rw [LayerGroup.isShown, showLayer_show_, if_neg hne]
    rfl

/-- C8 (visibility gating): for every tree and every node of it, given by its
path `p` from the root: after the untargeted `root.show(false)` the node is
not rendered, while `isShown()` of every descendant still returns the
descendant's own earlier flag; after a following `root.show(true)` every
descendant's flag equals its value from before the hide, and the node is
rendered exactly when it is under a visible root (for a root that was shown,
exactly when it was rendered before the hide). -/
theorem visibility_gating (t : LayerGroup) (p : List Nat) (n : LayerGroup)
    (hn : nodeAt p t = some n) :
    rendered p (t.showSelf false) = false ∧
    (p ≠ [] → ∃ m, nodeAt p (t.showSelf false) = some m ∧ m.isShown = n.isShown) ∧
    (p ≠ [] → ∃ m, nodeAt p ((t.showSelf false).showSelf true) = some m ∧
      m.isShown = n.isShown) ∧
    rendered p ((t.showSelf false).showSelf true) = rendered p (t.showSelf true) ∧
    (t.isShown = true → rendered p ((t.showSelf false).showSelf true) = rendered p t) := by
  refine ⟨rendered_showSelf_false t p, ?_, ?_, ?_, ?_⟩
  · intro hp
    cases p with
    | nil => exact absurd rfl hp
    | cons i q => exact ⟨n, by rw [nodeAt_showSelf_cons, hn], rfl⟩
  · intro hp
    cases p with
    | nil => exact absurd rfl hp
    | cons i q => exact ⟨n, by rw [showSelf_showSelf, nodeAt_showSelf_cons, hn], rfl⟩
  · rw [showSelf_showSelf]
  · intro hs
    rw [showSelf_showSelf, ← hs, showSelf_of_isShown]

theorem visibility_gating_witness :
    rendered [0]
      ((LayerGroup.mk Grouping.horizontal [LayerGroup.ofLayer 1, LayerGroup.ofLayer 2] none 0
        true (Double.fin 1) LayoutInfo.init).showSelf false) = false ∧
    (∃ m, nodeAt [0]
        ((LayerGroup.mk Grouping.horizontal [LayerGroup.ofLayer 1, LayerGroup.ofLayer 2] none 0
          true (Double.fin 1) LayoutInfo.init).showSelf false) = some m ∧
      m.isShown = true) :=
  ⟨(visibility_gating
      (LayerGroup.mk Grouping.horizontal [LayerGroup.ofLayer 1, LayerGroup.ofLayer 2] none 0
        true (Double.fin 1) LayoutInfo.init) [0] (LayerGroup.ofLayer 1) rfl).1,
    (visibility_gating
      (LayerGroup.mk Grouping.horizontal [LayerGroup.ofLayer 1, LayerGroup.ofLayer 2] none 0
        true (Double.fin 1) LayoutInfo.init) [0] (LayerGroup.ofLayer 1) rfl).2.1
      (List.cons_ne_nil _ _)⟩

/-- C9, the claim as stated fails for a single operand: `flex(x)` of one leaf
`x` returns the leaf itself, which has a payload, no children and grouping
horizontal. -/
theorem flex_single_leaf_is_not_flex_composite :
    (LayerGroup.ofLayer 7).nonEmpty = true ∧
    flex (LayerGroup.ofLayer 7) [] = Except.ok (LayerGroup.ofLayer 7) ∧
    (LayerGroup.ofLayer 7).isComposite = false ∧
    (LayerGroup.ofLayer 7).layer = some 7 ∧
    (LayerGroup.ofLayer 7).children = [] ∧
    (LayerGroup.ofLayer 7).grouping = Grouping.horizontal :=
  ⟨rfl, rfl, rfl, rfl, rfl, rfl⟩

/-- C9 (amended): for every list of two or more non-empty operands
`flex(x1, ..., xn)` returns a Composite node (no payload, non-empty children)
whose grouping is flex; for a single operand `flex(x)` returns
`intoLayerGroup(x)`, the operand itself. -/
theorem flex_composite_of_two_or_more (head : LayerGroup) (args : List LayerGroup)
    (hh : head.nonEmpty = true) (hargs : ∀ x ∈ args, x.nonEmpty = true) :
    (args ≠ [] → ∃ r, flex head args = Except.ok r ∧ r.layer = none ∧ r.children ≠ [] ∧
        r.isComposite = true ∧ r.grouping = Grouping.flex) ∧
    flex head [] = Except.ok head := by
  refine ⟨?_, rfl⟩
  intro hne
  cases args with
  | nil => exact absurd rfl hne
  | cons x xs =>
    obtain ⟨tl, htl, htlne⟩ :=
      flex_ok xs x (hargs x (List.mem_cons_self _ _))
        (fun y hy => hargs y (List.mem_cons_of_mem _ hy))
    have hcs : spliced Grouping.flex head ++ spliced Grouping.flex tl ≠ [] := by
      simp [spliced_ne_nil _ head hh]
    refine ⟨_, flex_cons_ok head x xs tl hh htl htlne, rfl, hcs, ?_, rfl⟩
    cases hs : spliced Grouping.flex head ++ spliced Grouping.flex tl with
    | nil => exact absurd hs hcs
    | cons y ys => simp [LayerGroup.isComposite, LayerGroup.layer, LayerGroup.children, hs]

theorem flex_composite_of_two_or_more_witness :
    ∃ r, flex (LayerGroup.ofLayer 1) [LayerGroup.ofLayer 2, LayerGroup.ofLayer 3] =
        Except.ok r ∧ r.layer = none ∧ r.children ≠ [] ∧
      r.isComposite = true ∧ r.grouping = Grouping.flex :=
  (flex_composite_of_two_or_more (LayerGroup.ofLayer 1)
    [LayerGroup.ofLayer 2, LayerGroup.ofLayer 3] rfl (by decide)).1 (List.cons_ne_nil _ _)

/-- C10 (selected_tab in range): the node `detail::join` returns from non-empty
operands, for any grouping, is a Composite with `selected_tab == 0` and
`selected_tab < children.size()`; and so is every Composite node of a tree
built from leaves with the combinators alone. -/
theorem selected_tab_in_range :
    (∀ (G : Grouping) (lhs rhs : LayerGroup), lhs.nonEmpty = true → rhs.nonEmpty = true →
      ∃ r, join G lhs rhs = Except.ok r ∧ r.isComposite = true ∧ r.selected_tab = 0 ∧
        r.selected_tab < r.children.length) ∧
    (∀ t : LayerGroup, Built t → ∀ n ∈ t.nodes, n.isComposite = true →
      n.selected_tab = 0 ∧ n.selected_tab < n.children.length) := by
  have root : ∀ (G : Grouping) (a b : LayerGroup), a.nonEmpty = true → b.nonEmpty = true →
      (LayerGroup.mk G (spliced G a ++ spliced G b) none 0 true (Double.fin 1)
          LayoutInfo.init).isComposite = true ∧
        (LayerGroup.mk G (spliced G a ++ spliced G b) none 0 true (Double.fin 1)
          LayoutInfo.init).selected_tab = 0 ∧
        (LayerGroup.mk G (spliced G a ++ spliced G b) none 0 true (Double.fin 1)
          LayoutInfo.init).selected_tab <
          (LayerGroup.mk G (spliced G a ++ spliced G b) none 0 true (Double.fin 1)
            LayoutInfo.init).children.length := by
    intro G a b ha hb
    have h1 := spliced_length_pos G a ha
    have hlen : 0 < (spliced G a ++ spliced G b).length := by
      rw [List.length_append]; omega
    refine ⟨?_, rfl, hlen⟩
    cases hs : spliced G a ++ spliced G b with
    | nil => rw [hs] at hlen; simp at hlen
    | cons y ys => simp [LayerGroup.isComposite, LayerGroup.layer, LayerGroup.children]
  constructor
  · intro G lhs rhs hl hr
    exact ⟨_, join_ok G lhs rhs hl hr, root G lhs rhs hl hr⟩
  · intro t ht n hn hc
    have key : Good (fun n : LayerGroup => n.isComposite = true →
        n.selected_tab = 0 ∧ n.selected_tab < n.children.length) t := by
      refine built_good ?_ ?_ ht
      · intro x hx hxc
        cases x with
        | mk g cs l st sh w c =>
          cases l <;> simp [LayerGroup.isLeaf, LayerGroup.isComposite, LayerGroup.layer] at hx hxc
      · intro G a b ha hb _
        exact (root G a b ha.1 hb.1).2
    exact key.2 n hn hc

theorem selected_tab_in_range_witness :
    (∃ r, join Grouping.tabbed (LayerGroup.ofLayer 1) (LayerGroup.ofLayer 2) = Except.ok r ∧
      r.isComposite = true ∧ r.selected_tab = 0 ∧ r.selected_tab < r.children.length) ∧
    ((LayerGroup.mk Grouping.tabbed [LayerGroup.ofLayer 1, LayerGroup.ofLayer 2] none 0
        true (Double.fin 1) LayoutInfo.init).selected_tab = 0 ∧
      (LayerGroup.mk Grouping.tabbed [LayerGroup.ofLayer 1, LayerGroup.ofLayer 2] none 0
        true (Double.fin 1) LayoutInfo.init).selected_tab <
      (LayerGroup.mk Grouping.tabbed [LayerGroup.ofLayer 1, LayerGroup.ofLayer 2] none 0
        true (Double.fin 1) LayoutInfo.init).children.length) :=
  ⟨selected_tab_in_range.1 Grouping.tabbed (LayerGroup.ofLayer 1) (LayerGroup.ofLayer 2)
      rfl rfl,
    selected_tab_in_range.2
      (LayerGroup.mk Grouping.stacked
        [LayerGroup.mk Grouping.tabbed [LayerGroup.ofLayer 1, LayerGroup.ofLayer 2] none 0
            true (Double.fin 1) LayoutInfo.init,
          LayerGroup.ofLayer 3]
        none 0 true (Double.fin 1) LayoutInfo.init)
      (Built.hat
        (Built.comma (a := LayerGroup.ofLayer 1) (b := LayerGroup.ofLayer 2)
          (r := LayerGroup.mk Grouping.tabbed [LayerGroup.ofLayer 1, LayerGroup.ofLayer 2]
            none 0 true (Double.fin 1) LayoutInfo.init) (Built.leaf rfl) (Built.leaf rfl) rfl)
        (Built.leaf (x := LayerGroup.ofLayer 3) rfl) rfl)
      _ (mem_nodes_iff.mpr (Or.inr ⟨_, List.mem_cons_self _ _, self_mem_nodes _⟩)) rfl⟩

/-! ## The variadic `flex` and the state of spliced operands -/

theorem flatMap_spliced_eq_contrib (G : Grouping) (xs : List LayerGroup)
    (h : ∀ x ∈ xs, x.nonEmpty = true) :
    xs.flatMap (spliced G) = xs.flatMap (contrib G) := by
  induction xs with
  | nil => rfl
  | cons x xs ih =>
    rw [List.flatMap_cons, List.flatMap_cons,
      spliced_eq_contrib G x (h x (List.mem_cons_self _ _)),
      ih (fun y hy => h y (List.mem_cons_of_mem _ hy))]

theorem flatMap_contrib_of_leaves (G : Grouping) (xs : List LayerGroup)
    (h : ∀ x ∈ xs, x.isLeaf = true) : xs.flatMap (contrib G) = xs := by
  induction xs with
  | nil => rfl
  | cons x xs ih =>
    have hx := h x (List.mem_cons_self _ _)
    have hc : contrib G x = [x] := by
      cases x with
      | mk g cs l st sh w c =>
        cases l <;> simp [contrib, LayerGroup.isLeaf, LayerGroup.isComposite,
          LayerGroup.layer] at hx ⊢
    rw [List.flatMap_cons, hc, ih (fun y hy => h y (List.mem_cons_of_mem _ hy))]
    rfl

/-- With two or more non-empty operands `flex` returns the flex node whose
children are the spliced child lists of all operands, in argument order. -/
theorem flex_closed_form (xs : List LayerGroup) :
    ∀ (head x : LayerGroup), head.nonEmpty = true → x.nonEmpty = true →
      (∀ y ∈ xs, y.nonEmpty = true) →
      flex head (x :: xs) =
        Except.ok (LayerGroup.mk Grouping.flex
          ((head :: x :: xs).flatMap (spliced Grouping.flex)) none 0 true (Double.fin 1)
          LayoutInfo.init) := by
  induction xs with
  | nil =>
    intro head x hh hx _
    rw [flex_cons_ok head x [] x hh rfl hx]
    simp [List.flatMap_cons]
  | cons y ys ih =>
    intro head x hh hx hys
    have htl := ih x y hx (hys y (List.mem_cons_self _ _))
      (fun z hz => hys z (List.mem_cons_of_mem _ hz))
    have hne : (x :: y :: ys).flatMap (spliced Grouping.flex) ≠ [] := by
      rw [List.flatMap_cons]
      simp [spliced_ne_nil Grouping.flex x hx]
    rw [flex_cons_ok head x (y :: ys) _ hh htl
      (nonEmpty_of_children_ne_nil _ _ _ _ _ _ _ hne), spliced_self]
    rw [List.flatMap_cons (f := spliced Grouping.flex) head]

/-- C16 (children of a variadic `flex`): for every list of two or more
non-empty operands, `flex(x1, ..., xn)` returns one flex Composite whose child
list is `contrib(x1) ++ ... ++ contrib(xn)` in argument order, where an
operand that is a flex Composite contributes its children and any other
operand contributes itself; for two or more leaves the children are exactly
`x1, ..., xn` in order. -/
theorem flex_children_contrib (head : LayerGroup) (args : List LayerGroup)
    (hargs : args ≠ []) (hh : head.nonEmpty = true)
    (ha : ∀ x ∈ args, x.nonEmpty = true) :
    (∃ r, flex head args = Except.ok r ∧ r.isComposite = true ∧
        r.grouping = Grouping.flex ∧
        r.children = (head :: args).flatMap (contrib Grouping.flex)) ∧
    ((∀ x ∈ head :: args, x.isLeaf = true) →
      ∃ r, flex head args = Except.ok r ∧ r.children = head :: args) := by
  cases args with
  | nil => exact absurd rfl hargs
  | cons x xs =>
    have hform := flex_closed_form xs head x hh (ha x (List.mem_cons_self _ _))
      (fun y hy => ha y (List.mem_cons_of_mem _ hy))
    have hall : ∀ y ∈ head :: x :: xs, y.nonEmpty = true := by
      intro y hy
      rcases List.mem_cons.mp hy with h | h
      · exact h ▸ hh
      · exact ha y h
    have hcontrib := flatMap_spliced_eq_contrib Grouping.flex (head :: x :: xs) hall
    have hne : (head :: x :: xs).flatMap (spliced Grouping.flex) ≠ [] := by
      rw [List.flatMap_cons]
      simp [spliced_ne_nil Grouping.flex head hh]
    refine ⟨⟨_, hform, ?_, rfl, hcontrib⟩, ?_⟩
    · cases hs : (head :: x :: xs).flatMap (spliced Grouping.flex) with
      | nil => exact absurd hs hne
      | cons y ys => simp [LayerGroup.isComposite, LayerGroup.layer, LayerGroup.children]
    · intro hleaves
      exact ⟨_, hform,
        hcontrib.trans (flatMap_contrib_of_leaves Grouping.flex (head :: x :: xs) hleaves)⟩

theorem flex_children_contrib_witness :
    ∃ r, flex (LayerGroup.ofLayer 1)
          [LayerGroup.mk Grouping.flex [LayerGroup.ofLayer 2, LayerGroup.ofLayer 3] none 0 true
              (Double.fin 1) LayoutInfo.init,
            LayerGroup.ofLayer 4] = Except.ok r ∧
      r.isComposite = true ∧ r.grouping = Grouping.flex ∧
      r.children =
        [LayerGroup.ofLayer 1, LayerGroup.ofLayer 2, LayerGroup.ofLayer 3,
          LayerGroup.ofLayer 4] :=
  (flex_children_contrib (LayerGroup.ofLayer 1)
    [LayerGroup.mk Grouping.flex [LayerGroup.ofLayer 2, LayerGroup.ofLayer 3] none 0 true
        (Double.fin 1) LayoutInfo.init,
      LayerGroup.ofLayer 4]
    (List.cons_ne_nil _ _) rfl (by decide)).1

/-- C17 (splicing discards the spliced operand's own state): for every
grouping `G`, every Composite operand `X` of grouping `G` and every non-empty
operand `Y`, `detail::join(G, X, Y)` and `detail::join(G, Y, X)` return the
same node whatever `X`'s own visible flag, selected tab and aspect ratio are,
and the root of the result has `show_ == true`, `selected_tab == 0` and
`width_over_height == 1.0`; and for the hidden horizontal group `X` of two
shown leaves and a leaf `C`, every node of `X | C` is shown. -/
theorem join_discards_spliced_state (G : Grouping) (cs : List LayerGroup) (hcs : cs ≠ [])
    (st st2 : Nat) (sh sh2 : Bool) (w w2 : Double) (c : LayoutInfo) (Y : LayerGroup)
    (hY : Y.nonEmpty = true) :
    (∃ r, join G (LayerGroup.mk G cs none st sh w c) Y = Except.ok r ∧
        join G (LayerGroup.mk G cs none st2 sh2 w2 c) Y = Except.ok r ∧
        r.isShown = true ∧ r.selected_tab = 0 ∧ r.width_over_height = Double.fin 1) ∧
    (∃ r, join G Y (LayerGroup.mk G cs none st sh w c) = Except.ok r ∧
        join G Y (LayerGroup.mk G cs none st2 sh2 w2 c) = Except.ok r ∧
        r.isShown = true ∧ r.selected_tab = 0 ∧ r.width_over_height = Double.fin 1) ∧
    (∃ r, opBar
          (LayerGroup.mk Grouping.horizontal [LayerGroup.ofLayer 1, LayerGroup.ofLayer 2] none
            0 false (Double.fin 1) LayoutInfo.init)
          (LayerGroup.ofLayer 3) = Except.ok r ∧
        ∀ n ∈ r.nodes, n.isShown = true) := by
  have h1 := nonEmpty_of_children_ne_nil G cs none st sh w c hcs
  have h2 := nonEmpty_of_children_ne_nil G cs none st2 sh2 w2 c hcs
  refine ⟨⟨_, join_ok G _ Y h1 hY, ?_, rfl, rfl, rfl⟩,
    ⟨_, join_ok G Y _ hY h1, ?_, rfl, rfl, rfl⟩, ⟨_, rfl, by decide⟩⟩
  · rw [join_ok G _ Y h2 hY, spliced_self, spliced_self]
  · rw [join_ok G Y _ hY h2, spliced_self, spliced_self]

theorem join_discards_spliced_state_witness :
    ∃ r, join Grouping.tabbed
          (LayerGroup.mk Grouping.tabbed [LayerGroup.ofLayer 1, LayerGroup.ofLayer 2] none 1
            false (Double.fin 2) LayoutInfo.init)
          (LayerGroup.ofLayer 3) = Except.ok r ∧
      join Grouping.tabbed
          (LayerGroup.mk Grouping.tabbed [LayerGroup.ofLayer 1, LayerGroup.ofLayer 2] none 0
            true (Double.fin 1) LayoutInfo.init)
          (LayerGroup.ofLayer 3) = Except.ok r ∧
      r.isShown = true ∧ r.selected_tab = 0 ∧ r.width_over_height = Double.fin 1 :=
  (join_discards_spliced_state Grouping.tabbed [LayerGroup.ofLayer 1, LayerGroup.ofLayer 2]
    (List.cons_ne_nil _ _) 1 0 false true (Double.fin 2) (Double.fin 1) LayoutInfo.init
    (LayerGroup.ofLayer 3) rfl).1

/-! ## Aspect ratio of image leaves -/

theorem setWidthOverHeight_width_over_height (t : LayerGroup) (w : Double) :
    (t.setWidthOverHeight w).width_over_height = w := by
  cases t with
  | mk g cs l st sh w0 c => rfl

/-- The quotient of two converted `int`s with a non-zero denominator. -/
theorem div_ofInt_of_ne_zero (rnd : ℚ → Double) (w h : Int) (hh : h ≠ 0) :
    Double.div rnd (Double.ofInt w) (Double.ofInt h) =
      if w = 0 then Double.fin 0 else rnd ((w : ℚ) / (h : ℚ)) := by
  have hq : (h : ℚ) ≠ 0 := by exact_mod_cast hh
  by_cases hw : w = 0
  · subst hw
    simp [Double.div, Double.ofInt, hq]
  · have hwq : (w : ℚ) ≠ 0 := by exact_mod_cast hw
    simp [Double.div, Double.ofInt, hq, hw, hwq]

/-- C11, the code at a zero height: `intoLayerGroup(image)` divides
`double(image.width())` by `image.height()` without a test, so for the empty
image (0 x 0) the ratio is NaN and for an image of width 8 and height 0 it is
`+inf`; neither is 1.0.  For a non-zero height the ratio is the quotient. -/
theorem intoLayerGroupImage_zero_height (rnd : ℚ → Double) (draw_layer : Nat) :
    (intoLayerGroupImage rnd draw_layer 0 0).isLeaf = true ∧
    (intoLayerGroupImage rnd draw_layer 0 0).width_over_height = Double.nan ∧
    (intoLayerGroupImage rnd draw_layer 8 0).width_over_height = Double.inf false ∧
    Double.nan ≠ Double.fin 1 ∧ Double.inf false ≠ Double.fin 1 := by
  refine ⟨rfl, ?_, ?_, by simp, by simp⟩
  · simp [intoLayerGroupImage, intoLayerGroupDrawable, intoLayerGroupLayer,
      LayerGroup.ofLayer, LayerGroup.setWidthOverHeight, LayerGroup.width_over_height,
      Double.div, Double.ofInt]
  · simp [intoLayerGroupImage, intoLayerGroupDrawable, intoLayerGroupLayer,
      LayerGroup.ofLayer, LayerGroup.setWidthOverHeight, LayerGroup.width_over_height,
      Double.div, Double.ofInt]

/-- C12 (the image layer traits guard the denominator): for every image size
`(w, h)`, both `LayerTraits<T>::toGroup` and
`LayerTraits<Shared<DrawnImage>>::toGroup` return a node whose
`width_over_height` is the quotient of `double(w)` by `double(h)` when `h > 0`
(the denominator is then non-zero: the quotient is 0 for `w = 0` and the
rounded `w/h` otherwise) and exactly 1.0 when `h <= 0`. -/
theorem layerTraits_toGroup_guards_denominator (rnd : ℚ → Double) (group : LayerGroup)
    (w h : Int) :
    (0 < h →
      (LayerTraits.toGroup rnd group w h).width_over_height =
          Double.div rnd (Double.ofInt w) (Double.ofInt h) ∧
        (LayerTraits.toGroupDrawnImage rnd group (w, h)).width_over_height =
          Double.div rnd (Double.ofInt w) (Double.ofInt h) ∧
        Double.div rnd (Double.ofInt w) (Double.ofInt h) =
          (if w = 0 then Double.fin 0 else rnd ((w : ℚ) / (h : ℚ)))) ∧
    (h ≤ 0 →
      (LayerTraits.toGroup rnd group w h).width_over_height = Double.fin 1 ∧
        (LayerTraits.toGroupDrawnImage rnd group (w, h)).width_over_height =
          Double.fin 1) := by
  constructor
  · intro hpos
    refine ⟨?_, ?_, div_ofInt_of_ne_zero rnd w h (by omega)⟩
    · simp [LayerTraits.toGroup, setWidthOverHeight_width_over_height, hpos]
    · simp [LayerTraits.toGroupDrawnImage, setWidthOverHeight_width_over_height, hpos]
  · intro hle
    have hn : ¬ (h > 0) := by omega
    constructor
    · simp [LayerTraits.toGroup, setWidthOverHeight_width_over_height, hn]
    · simp [LayerTraits.toGroupDrawnImage, setWidthOverHeight_width_over_height, hn]

theorem layerTraits_toGroup_guards_denominator_witness :
    ((LayerTraits.toGroup Double.fin (LayerGroup.ofLayer 1) 8 0).width_over_height =
        Double.fin 1 ∧
      (LayerTraits.toGroupDrawnImage Double.fin (LayerGroup.ofLayer 1)
        (8, 0)).width_over_height = Double.fin 1) ∧
    ((LayerTraits.toGroup Double.fin (LayerGroup.ofLayer 1) 8 5).width_over_height =
        Double.div Double.fin (Double.ofInt 8) (Double.ofInt 5) ∧
      (LayerTraits.toGroupDrawnImage Double.fin (LayerGroup.ofLayer 1)
        (8, 5)).width_over_height = Double.div Double.fin (Double.ofInt 8) (Double.ofInt 5) ∧
      Double.div Double.fin (Double.ofInt 8) (Double.ofInt 5) =
        (if (8 : Int) = 0 then Double.fin 0 else Double.fin (((8 : Int) : ℚ) / ((5 : Int) : ℚ)))) :=
  ⟨(layerTraits_toGroup_guards_denominator Double.fin (LayerGroup.ofLayer 1) 8 0).2
      (by decide),
    (layerTraits_toGroup_guards_denominator Double.fin (LayerGroup.ofLayer 1) 8 5).1
      (by decide)⟩

/-- C13, the claim as stated fails: for an image of width 0 and height 5 the
guard of `LayerTraits<T>::toGroup` lets the division through and the ratio is
`0/5 = 0.0`, not 1.0. -/
theorem layerTraits_toGroup_zero_width_ratio_is_zero :
    (LayerTraits.toGroup Double.fin (LayerGroup.ofLayer 1) 0 5).width_over_height =
      Double.fin 0 ∧
    Double.fin 0 ≠ Double.fin 1 := by
  constructor
  · simp [LayerTraits.toGroup, setWidthOverHeight_width_over_height, Double.div,
      Double.ofInt]
  · simp

/-- C13 (amended): for every image whose height is zero, each `LayerTraits`
`toGroup` function produces a node with `width_over_height == 1.0`; for every
image of width 0 and positive height, each image conversion
(`intoLayerGroup(image)` and the two `toGroup` functions) produces a node with
`width_over_height == 0.0`, the quotient `0/h`. -/
theorem degenerate_image_ratio (rnd : ℚ → Double) (group : LayerGroup) (draw_layer : Nat)
    (w h : Int) :
    (h = 0 →
      (LayerTraits.toGroup rnd group w h).width_over_height = Double.fin 1 ∧
        (LayerTraits.toGroupDrawnImage rnd group (w, h)).width_over_height =
          Double.fin 1) ∧
    (w = 0 → 0 < h →
      (intoLayerGroupImage rnd draw_layer w h).width_over_height = Double.fin 0 ∧
        (LayerTraits.toGroup rnd group w h).width_over_height = Double.fin 0 ∧
        (LayerTraits.toGroupDrawnImage rnd group (w, h)).width_over_height =
          Double.fin 0) := by
  constructor
  · intro hz
    subst hz
    constructor
    · simp [LayerTraits.toGroup, setWidthOverHeight_width_over_height]
    · simp [LayerTraits.toGroupDrawnImage, setWidthOverHeight_width_over_height]
  · intro hw hpos
    have hdiv := div_ofInt_of_ne_zero rnd w h (by omega)
    rw [if_pos hw] at hdiv
    refine ⟨?_, ?_, ?_⟩
    · simp only [intoLayerGroupImage, setWidthOverHeight_width_over_height, hdiv]
    · simp [LayerTraits.toGroup, setWidthOverHeight_width_over_height, hpos, hdiv]
    · simp [LayerTraits.toGroupDrawnImage, setWidthOverHeight_width_over_height, hpos, hdiv]

theorem degenerate_image_ratio_witness :
    ((LayerTraits.toGroup Double.fin (LayerGroup.ofLayer 1) 8 0).width_over_height =
        Double.fin 1 ∧
      (LayerTraits.toGroupDrawnImage Double.fin (LayerGroup.ofLayer 1)
        (8, 0)).width_over_height = Double.fin 1) ∧
    ((intoLayerGroupImage Double.fin 2 0 5).width_over_height = Double.fin 0 ∧
      (LayerTraits.toGroup Double.fin (LayerGroup.ofLayer 1) 0 5).width_over_height =
        Double.fin 0 ∧
      (LayerTraits.toGroupDrawnImage Double.fin (LayerGroup.ofLayer 1)
        (0, 5)).width_over_height = Double.fin 0) :=
  ⟨(degenerate_image_ratio Double.fin (LayerGroup.ofLayer 1) 2 8 0).1 rfl,
    (degenerate_image_ratio Double.fin (LayerGroup.ofLayer 1) 2 0 5).2 rfl (by decide)⟩

/-! ## The ConstraintPass -/

/-- Induction over a tree: a property that holds of a node whenever it holds of
all its children holds of every node. -/
theorem LayerGroup.induct {P : LayerGroup → Prop}
    (step : ∀ g cs l st sh w c, (∀ x ∈ cs, P x) → P (LayerGroup.mk g cs l st sh w c)) :
    ∀ t, P t := by
  intro t
  refine @LayerGroup.rec P (fun cs => ∀ x ∈ cs, P x) ?_ ?_ ?_ t
  · intro g cs l st sh w c ih
    exact step g cs l st sh w c ih
  · intro x hx
    cases hx
  · intro head tail ih1 ih2 x hx
    rcases List.mem_cons.mp hx with h | h
    · exact h ▸ ih1
    · exact ih2 x h

theorem Axis.get_pair {α : Type} (ax : Axis) (a b : α) : ax.get (ax.pair a b) = a := by
  cases ax <;> rfl

theorem Axis.cross_get_pair {α : Type} (ax : Axis) (a b : α) :
    ax.cross.get (ax.pair a b) = b := by
  cases ax <;> rfl

theorem foldl_max_ge (xs : List Int) : ∀ a : Int, a ≤ xs.foldl max a ∧
    ∀ x ∈ xs, x ≤ xs.foldl max a := by
  induction xs with
  | nil => intro a; exact ⟨le_refl a, fun x hx => by cases hx⟩
  | cons y ys ih =>
    intro a
    obtain ⟨h1, h2⟩ := ih (max a y)
    simp only [List.foldl_cons]
    refine ⟨le_trans (le_max_left a y) h1, ?_⟩
    intro x hx
    rcases List.mem_cons.mp hx with h | h
    · rw [h]; exact le_trans (le_max_right a y) h1
    · exact h2 x h

theorem foldl_max_mem (xs : List Int) : ∀ a : Int, xs.foldl max a = a ∨
    xs.foldl max a ∈ xs := by
  induction xs with
  | nil => intro a; exact Or.inl rfl
  | cons y ys ih =>
    intro a
    simp only [List.foldl_cons]
    rcases ih (max a y) with h | h
    · rcases max_choice a y with hm | hm
      · exact Or.inl (by rw [h, hm])
      · exact Or.inr (by rw [h, hm]; exact List.mem_cons_self _ _)
    · exact Or.inr (List.mem_cons_of_mem _ h)

/-- `maxInts` of a list is an upper bound of it. -/
theorem le_maxInts (xs : List Int) : ∀ x ∈ xs, x ≤ maxInts xs := by
  cases xs with
  | nil => intro x hx; cases hx
  | cons y ys =>
    intro x hx
    rcases List.mem_cons.mp hx with h | h
    · rw [h]; exact (foldl_max_ge ys y).1
    · exact (foldl_max_ge ys y).2 x h

/-- `maxInts` of a non-empty list is one of its elements. -/
theorem maxInts_mem (xs : List Int) (h : xs ≠ []) : maxInts xs ∈ xs := by
  cases xs with
  | nil => exact absurd rfl h
  | cons y ys =>
    rcases foldl_max_mem ys y with h1 | h1
    · simp only [maxInts, h1]; exact List.mem_cons_self _ _
    · exact List.mem_cons_of_mem _ h1

theorem constraintsOfChildren_iff (env : LayoutEnv) (cs : List LayerGroup) :
    ∀ cs2, constraintsOfChildren env cs = Except.ok cs2 ↔
      List.Forall₂ (fun x x2 => computeLayoutConstraints env x = Except.ok x2) cs cs2 := by
  induction cs with
  | nil =>
    intro cs2
    constructor
    · intro h
      simp only [constraintsOfChildren, Except.ok.injEq] at h
      subst h
      exact List.Forall₂.nil
    · intro h
      cases h
      rfl
  | cons x xs ih =>
    intro cs2
    constructor
    · intro h
      simp only [constraintsOfChildren] at h
      cases hx : computeLayoutConstraints env x with
      | error e => rw [hx] at h; cases h
      | ok x2 =>
        rw [hx] at h
        cases hxs : constraintsOfChildren env xs with
        | error e => rw [hxs] at h; cases h
        | ok xs2 =>
          rw [hxs] at h
          simp only [Except.ok.injEq] at h
          subst h
          exact List.Forall₂.cons hx ((ih xs2).mp hxs)
    · intro h
      cases h with
      | cons hx hxs =>
        simp only [constraintsOfChildren, hx, (ih _).mpr hxs]

/-- What the ConstraintPass returns for a node, from what it returns for the
children. -/
theorem computeLayoutConstraints_eq_ok (env : LayoutEnv) (g : Grouping)
    (cs : List LayerGroup) (l : Option Nat) (st : Nat) (sh : Bool) (w : Double)
    (c : LayoutInfo) (t2 : LayerGroup) :
    computeLayoutConstraints env (LayerGroup.mk g cs l st sh w c) = Except.ok t2 ↔
      ∃ cs2, constraintsOfChildren env cs = Except.ok cs2 ∧
        nodeConstraints env g cs2 l st sh w c = Except.ok t2 := by
  simp only [computeLayoutConstraints]
  cases h : constraintsOfChildren env cs with
  | error e => simp
  | ok cs2 => simp

/-- The node the ConstraintPass returns keeps every field but `min_pix` and
`parts`, and has the processed children. -/
theorem nodeConstraints_fields (env : LayoutEnv) (g : Grouping) (cs2 : List LayerGroup)
    (l : Option Nat) (st : Nat) (sh : Bool) (w : Double) (c : LayoutInfo) (t2 : LayerGroup)
    (h : nodeConstraints env g cs2 l st sh w c = Except.ok t2) :
    ∃ c2 : LayoutInfo, t2 = LayerGroup.mk g cs2 l st sh w c2 ∧ c2.region = c.region ∧
      (l = none → c2.min_pix = (groupConstraints env g cs2).1 ∧
        c2.parts = (groupConstraints env g cs2).2) := by
  cases l with
  | some a =>
    simp only [nodeConstraints, Except.ok.injEq] at h
    exact ⟨_, h.symm, rfl, fun hl => by cases hl⟩
  | none =>
    simp only [nodeConstraints] at h
    split at h
    · cases h
    · simp only [Except.ok.injEq] at h
      exact ⟨_, h.symm, rfl, fun _ => ⟨rfl, rfl⟩⟩

/-- The outcome of `nodeConstraints` does not depend on the `min_pix` and
`parts` the node had before. -/
theorem nodeConstraints_cache_irrelevant (env : LayoutEnv) (g : Grouping)
    (cs2 : List LayerGroup) (l : Option Nat) (st : Nat) (sh : Bool) (w : Double)
    (c c2 : LayoutInfo) (hreg : c2.region = c.region) :
    nodeConstraints env g cs2 l st sh w c2 =
      (match nodeConstraints env g cs2 l st sh w c with
       | Except.ok t2 => Except.ok t2
       | Except.error _ =>
         Except.error (ConstraintError.inconsistentAspect
           (LayerGroup.mk g cs2 l st sh w c2))) := by
  cases l with
  | some a => simp only [nodeConstraints, hreg]
  | none =>
    simp only [nodeConstraints, hreg]
    split <;> rfl

/-- Each node of the tree after the ConstraintPass is what the pass returns
for the node at the same position before. -/
theorem nodeAt_computeLayoutConstraints (env : LayoutEnv) (p : List Nat) :
    ∀ (t t2 n2 : LayerGroup), computeLayoutConstraints env t = Except.ok t2 →
      nodeAt p t2 = some n2 →
      ∃ n, nodeAt p t = some n ∧ computeLayoutConstraints env n = Except.ok n2 := by
  induction p with
  | nil =>
    intro t t2 n2 h hn
    simp only [nodeAt, Option.some.injEq] at hn
    subst hn
    exact ⟨t, rfl, h⟩
  | cons i q ih =>
    intro t t2 n2 h hn
    cases t with
    | mk g cs l st sh w c =>
      obtain ⟨cs2, hcs, hnode⟩ := (computeLayoutConstraints_eq_ok env g cs l st sh w c t2).mp h
      obtain ⟨c2, ht2, _, _⟩ := nodeConstraints_fields env g cs2 l st sh w c t2 hnode
      subst ht2
      simp only [nodeAt, LayerGroup.children] at hn ⊢
      have hall := (constraintsOfChildren_iff env cs cs2).mp hcs
      cases hc2 : cs2[i]? with
      | none => rw [hc2] at hn; cases hn
      | some x2 =>
        rw [hc2] at hn
        have hi : i < cs2.length := (List.getElem?_eq_some.mp hc2).1
        have hlen := hall.length_eq
        have hi1 : i < cs.length := by omega
        have hx : cs[i]? = some (cs.get ⟨i, hi1⟩) := List.getElem?_eq_getElem hi1
        have hpass : computeLayoutConstraints env (cs.get ⟨i, hi1⟩) = Except.ok x2 := by
          have := List.Forall₂.get hall hi1 hi
          have hx2 : cs2.get ⟨i, hi⟩ = x2 := (List.getElem?_eq_some.mp hc2).2
          rw [hx2] at this
          exact this
        rw [hx]
        exact ih _ x2 n2 hpass hn

theorem constraintsOfChildren_ok_of_forall (env : LayoutEnv) (cs : List LayerGroup)
    (h : ∀ x ∈ cs, ∃ x2, computeLayoutConstraints env x = Except.ok x2) :
    ∃ cs2, constraintsOfChildren env cs = Except.ok cs2 := by
  induction cs with
  | nil => exact ⟨[], rfl⟩
  | cons x xs ih =>
    obtain ⟨x2, hx⟩ := h x (List.mem_cons_self _ _)
    obtain ⟨xs2, hxs⟩ := ih (fun y hy => h y (List.mem_cons_of_mem _ hy))
    exact ⟨x2 :: xs2, by simp only [constraintsOfChildren, hx, hxs]⟩

/-- The ConstraintPass leaves the aspect ratio of a node as it is. -/
theorem computeLayoutConstraints_width_over_height (env : LayoutEnv) (t t2 : LayerGroup)
    (h : computeLayoutConstraints env t = Except.ok t2) :
    t2.width_over_height = t.width_over_height := by
  cases t with
  | mk g cs l st sh w c =>
    obtain ⟨cs2, _, hnode⟩ := (computeLayoutConstraints_eq_ok env g cs l st sh w c t2).mp h
    obtain ⟨c2, ht2, _, _⟩ := nodeConstraints_fields env g cs2 l st sh w c t2 hnode
    subst ht2
    rfl

theorem all_eq_of_forall₂ {R : LayerGroup → LayerGroup → Prop} {f g : LayerGroup → Bool}
    {xs ys : List LayerGroup} (h : List.Forall₂ R xs ys) (hfg : ∀ a b, R a b → f a = g b) :
    xs.all f = ys.all g := by
  induction h with
  | nil => rfl
  | cons hab _ ih => simp only [List.all_cons, hfg _ _ hab, ih]

theorem aspectConsistent_after_pass (env : LayoutEnv) (cs cs2 : List LayerGroup)
    (h : List.Forall₂ (fun x x2 => computeLayoutConstraints env x = Except.ok x2) cs cs2) :
    aspectConsistent cs2 = aspectConsistent cs := by
  cases h with
  | nil => rfl
  | cons hx hxs =>
    simp only [aspectConsistent]
    refine (all_eq_of_forall₂ hxs ?_).symm
    intro a b hab
    rw [computeLayoutConstraints_width_over_height env _ _ hab,
      computeLayoutConstraints_width_over_height env _ _ hx]

/-- The ConstraintPass returns a tree when the children of every flex group
share one aspect ratio. -/
theorem computeLayoutConstraints_ok (env : LayoutEnv) :
    ∀ t : LayerGroup,
      (∀ n ∈ t.nodes, n.layer = none → n.grouping = Grouping.flex →
        aspectConsistent n.children = true) →
      ∃ t2, computeLayoutConstraints env t = Except.ok t2 := by
  refine LayerGroup.induct ?_
  intro g cs l st sh w c ih hcond
  have hchildren : ∀ x ∈ cs, ∃ x2, computeLayoutConstraints env x = Except.ok x2 := by
    intro x hx
    refine ih x hx ?_
    intro n hn
    exact hcond n (mem_nodes_iff.mpr (Or.inr ⟨x, hx, hn⟩))
  obtain ⟨cs2, hcs⟩ := constraintsOfChildren_ok_of_forall env cs hchildren
  have hasp := aspectConsistent_after_pass env cs cs2
    ((constraintsOfChildren_iff env cs cs2).mp hcs)
  cases l with
  | some a =>
    exact ⟨_, (computeLayoutConstraints_eq_ok env g cs (some a) st sh w c _).mpr
      ⟨cs2, hcs, rfl⟩⟩
  | none =>
    have hroot := hcond _ (self_mem_nodes _) rfl
    have hnode : ∃ t2, nodeConstraints env g cs2 none st sh w c = Except.ok t2 := by
      by_cases hg : g = Grouping.flex
      · have hc : aspectConsistent cs2 = true := by rw [hasp]; exact hroot hg
        simp [nodeConstraints, hc]
      · simp [nodeConstraints, hg]
    obtain ⟨t2, ht2⟩ := hnode
    exact ⟨t2, (computeLayoutConstraints_eq_ok env g cs none st sh w c t2).mpr
      ⟨cs2, hcs, ht2⟩⟩

theorem forall₂_self_of_forall₂ {R S : LayerGroup → LayerGroup → Prop}
    {xs ys : List LayerGroup} (h : List.Forall₂ R xs ys)
    (hS : ∀ x ∈ xs, ∀ y, R x y → S y y) : List.Forall₂ S ys ys := by
  induction h with
  | nil => exact List.Forall₂.nil
  | cons hab _ ih =>
    exact List.Forall₂.cons (hS _ (List.mem_cons_self _ _) _ hab)
      (ih (fun x hx => hS x (List.mem_cons_of_mem _ hx)))

/-- The ConstraintPass run on its own result returns that result. -/
theorem computeLayoutConstraints_idem (env : LayoutEnv) :
    ∀ t t2 : LayerGroup, computeLayoutConstraints env t = Except.ok t2 →
      computeLayoutConstraints env t2 = Except.ok t2 := by
  refine LayerGroup.induct ?_
  intro g cs l st sh w c ih t2 h
  obtain ⟨cs2, hcs, hnode⟩ := (computeLayoutConstraints_eq_ok env g cs l st sh w c t2).mp h
  obtain ⟨c2, ht2, hreg, _⟩ := nodeConstraints_fields env g cs2 l st sh w c t2 hnode
  have hall := (constraintsOfChildren_iff env cs cs2).mp hcs
  have hself : List.Forall₂ (fun x x2 => computeLayoutConstraints env x = Except.ok x2)
      cs2 cs2 :=
    forall₂_self_of_forall₂ hall (fun x hx y hxy => ih x hx y hxy)
  rw [ht2]
  refine (computeLayoutConstraints_eq_ok env g cs2 l st sh w c2 _).mpr
    ⟨cs2, (constraintsOfChildren_iff env cs2 cs2).mpr hself, ?_⟩
  rw [nodeConstraints_cache_irrelevant env g cs2 l st sh w c c2 hreg, hnode, ht2]

/-- What the ConstraintPass leaves in a horizontal or vertical group without
payload: the aggregate of §4.2 over the group's children. -/
theorem computeLayoutConstraints_hv (env : LayoutEnv) (n n2 : LayerGroup) (ax : Axis)
    (h : computeLayoutConstraints env n = Except.ok n2) (hl : n2.layer = none)
    (hax : n2.grouping.primaryAxis = some ax) :
    n2.cached_.min_pix = (hvConstraints env ax n2.children).1 ∧
      n2.cached_.parts = (hvConstraints env ax n2.children).2 := by
  cases n with
  | mk g cs l st sh w c =>
    obtain ⟨cs2, _, hnode⟩ := (computeLayoutConstraints_eq_ok env g cs l st sh w c n2).mp h
    obtain ⟨c2, ht2, _, hagg⟩ := nodeConstraints_fields env g cs2 l st sh w c n2 hnode
    subst ht2
    simp only [LayerGroup.layer] at hl
    obtain ⟨h1, h2⟩ := hagg hl
    simp only [LayerGroup.grouping] at hax
    simp only [LayerGroup.cached_, LayerGroup.children, h1, h2]
    cases g <;> simp only [Grouping.primaryAxis] at hax <;> cases hax <;> exact ⟨rfl, rfl⟩

/-! ## The RegionPass -/

theorem computeLayoutRegion_region (env : LayoutEnv) (t : LayerGroup) (r : Rect) :
    (computeLayoutRegion env t r).cached_.region = some r := by
  cases t with
  | mk g cs l st sh w c => rfl

theorem computeLayoutRegion_assignedExtent (env : LayoutEnv) (ax : Axis) (t : LayerGroup)
    (r : Rect) : (computeLayoutRegion env t r).assignedExtent ax = Rect.extent ax r := by
  simp only [LayerGroup.assignedExtent, computeLayoutRegion_region]

theorem regionsOfChildren_eq_zipWith (env : LayoutEnv) (cs : List LayerGroup) :
    ∀ rs : List Rect, cs.length = rs.length →
      regionsOfChildren env cs rs = List.zipWith (computeLayoutRegion env) cs rs := by
  induction cs with
  | nil => intro rs _; simp [regionsOfChildren]
  | cons x xs ih =>
    intro rs hlen
    cases rs with
    | nil => simp at hlen
    | cons r rs =>
      simp only [List.length_cons, Nat.add_right_cancel_iff] at hlen
      simp only [regionsOfChildren, List.zipWith_cons_cons, ih rs hlen]

theorem zipWith_assignedExtent (env : LayoutEnv) (ax : Axis) (cs : List LayerGroup) :
    ∀ rs : List Rect, cs.length = rs.length →
      (List.zipWith (computeLayoutRegion env) cs rs).map (LayerGroup.assignedExtent ax) =
        rs.map (Rect.extent ax) := by
  induction cs with
  | nil =>
    intro rs hlen
    cases rs with
    | nil => rfl
    | cons r rs => simp at hlen
  | cons x xs ih =>
    intro rs hlen
    cases rs with
    | nil => simp at hlen
    | cons r rs =>
      simp only [List.length_cons, Nat.add_right_cancel_iff] at hlen
      simp only [List.zipWith_cons_cons, List.map_cons, computeLayoutRegion_assignedExtent,
        ih rs hlen]

theorem extent_withRange (ax : Axis) (r : Rect) (lo hi : Int) :
    Rect.extent ax (Rect.withRange ax r lo hi) = hi - lo := by
  simp only [Rect.extent, Rect.withRange, Axis.get_pair]

theorem placeAlong_extents (ax : Axis) (r : Rect) (es : List Int) :
    ∀ pos : Int, (placeAlong ax r pos es).map (Rect.extent ax) = es := by
  induction es with
  | nil => intro pos; rfl
  | cons e es ih =>
    intro pos
    simp only [placeAlong, List.map_cons, extent_withRange, ih]
    congr 1
    omega

theorem placeAlong_length (ax : Axis) (r : Rect) (es : List Int) (pos : Int) :
    (placeAlong ax r pos es).length = es.length := by
  have h := congrArg List.length (placeAlong_extents ax r es pos)
  simpa using h

theorem hvExtents_length (env : LayoutEnv) (ax : Axis) (cs : List LayerGroup) (E : Int) :
    (hvExtents env ax cs E).length = cs.length := by
  cases cs with
  | nil => rfl
  | cons x xs =>
    simp only [hvExtents, List.map_cons, List.length_append, List.length_dropLast,
      List.length_cons, List.length_map, List.length_singleton, List.length_nil]
    omega

/-- The extents a horizontal or vertical group with at least one child hands
out add up to the extent it was assigned. -/
theorem hvExtents_sum (env : LayoutEnv) (ax : Axis) (cs : List LayerGroup) (E : Int)
    (h : cs ≠ []) : (hvExtents env ax cs E).sum = E := by
  cases cs with
  | nil => exact absurd rfl h
  | cons x xs =>
    simp only [hvExtents, List.map_cons, List.sum_append, List.sum_cons, List.sum_nil]
    omega

theorem childRegions_length (env : LayoutEnv) (g : Grouping) (st : Nat)
    (cs : List LayerGroup) (r : Rect) : (childRegions env g st cs r).length = cs.length := by
  cases g <;>
    simp [childRegions, placeAlong_length, hvExtents_length]

/-- The children of a node without payload after the RegionPass. -/
theorem computeLayoutRegion_children (env : LayoutEnv) (g : Grouping) (cs : List LayerGroup)
    (st : Nat) (sh : Bool) (w : Double) (c : LayoutInfo) (r : Rect) :
    (computeLayoutRegion env (LayerGroup.mk g cs none st sh w c) r).children =
      List.zipWith (computeLayoutRegion env) cs (childRegions env g st cs r) := by
  simp only [computeLayoutRegion, LayerGroup.children]
  exact regionsOfChildren_eq_zipWith env cs _ (childRegions_length env g st cs r).symm

/-- Conservation at the node the RegionPass is called on. -/
theorem computeLayoutRegion_conservation_root (env : LayoutEnv) (n : LayerGroup) (r : Rect)
    (ax : Axis) (hc : n.isComposite = true) (hax : n.grouping.primaryAxis = some ax) :
    ((computeLayoutRegion env n r).children.map (LayerGroup.assignedExtent ax)).sum =
      (computeLayoutRegion env n r).assignedExtent ax := by
  cases n with
  | mk g cs l st sh w c =>
    cases l with
    | some a => simp [LayerGroup.isComposite, LayerGroup.layer] at hc
    | none =>
      have hne : cs ≠ [] := by
        intro h
        simp [LayerGroup.isComposite, LayerGroup.layer, LayerGroup.children, h] at hc
      rw [computeLayoutRegion_children, computeLayoutRegion_assignedExtent,
        zipWith_assignedExtent env ax cs _ (childRegions_length env g st cs r).symm]
      simp only [LayerGroup.grouping] at hax
      cases g <;> simp only [Grouping.primaryAxis] at hax <;> cases hax <;>
        simp only [childRegions, placeAlong_extents, hvExtents_sum env _ cs _ hne]

theorem isComposite_congr (a b : LayerGroup) (hl : a.layer = b.layer)
    (hlen : a.children.length = b.children.length) : a.isComposite = b.isComposite := by
  unfold LayerGroup.isComposite
  rw [hl]
  cases ha : a.children with
  | nil =>
    rw [ha] at hlen
    rw [List.length_eq_zero.mp hlen.symm]
  | cons x xs =>
    rw [ha] at hlen
    cases hb : b.children with
    | nil => rw [hb] at hlen; simp at hlen
    | cons y ys => rfl

theorem computeLayoutRegion_isComposite (env : LayoutEnv) (n : LayerGroup) (r : Rect) :
    (computeLayoutRegion env n r).isComposite = n.isComposite ∧
      (computeLayoutRegion env n r).grouping = n.grouping := by
  cases n with
  | mk g cs l st sh w c =>
    cases l with
    | some a => exact ⟨rfl, rfl⟩
    | none =>
      refine ⟨isComposite_congr _ _ rfl ?_, rfl⟩
      rw [computeLayoutRegion_children]
      simp only [List.length_zipWith, childRegions_length, Nat.min_self, LayerGroup.children]

/-- In a tree of Leaves and Composites each node after the RegionPass is what
the pass returns for the node at the same position before, for some
rectangle. -/
theorem nodeAt_computeLayoutRegion (env : LayoutEnv) (p : List Nat) :
    ∀ (t : LayerGroup) (r : Rect) (n2 : LayerGroup), t.wellFormed →
      nodeAt p (computeLayoutRegion env t r) = some n2 →
      ∃ n r2, nodeAt p t = some n ∧ n2 = computeLayoutRegion env n r2 := by
  induction p with
  | nil =>
    intro t r n2 _ hn
    simp only [nodeAt, Option.some.injEq] at hn
    exact ⟨t, r, rfl, hn.symm⟩
  | cons i q ih =>
    intro t r n2 hwf hn
    cases t with
    | mk g cs l st sh w c =>
      cases l with
      | some a =>
        have hroot := hwf _ (self_mem_nodes _)
        have hcs : cs = [] := by
          rcases hroot with h1 | h1
          · simp only [LayerGroup.isLeaf, Bool.and_eq_true, List.isEmpty_iff,
              LayerGroup.children] at h1
            exact h1.2
          · simp [LayerGroup.isComposite, LayerGroup.layer] at h1
        subst hcs
        simp [nodeAt, computeLayoutRegion, regionsOfChildren, LayerGroup.children] at hn
      | none =>
        simp only [nodeAt, computeLayoutRegion_children] at hn
        simp only [nodeAt, LayerGroup.children]
        cases hz : (List.zipWith (computeLayoutRegion env) cs
            (childRegions env g st cs r))[i]? with
        | none => rw [hz] at hn; cases hn
        | some z =>
          rw [hz] at hn
          obtain ⟨x, y, hx, _, hxy⟩ := List.getElem?_zipWith_eq_some.mp hz
          rw [hx]
          subst hxy
          exact ih x y n2
            (wellFormed_child (t := LayerGroup.mk g cs none st sh w c) hwf
              (List.getElem?_mem hx)) hn

/-- C14 (conservation): for every horizontal or vertical group and every
assigned outer rectangle, after `computeLayoutRegion` the sum of the
children's assigned primary-axis extents equals the group's own assigned
primary-axis extent, which is that of the rectangle; in a tree of Leaves and
Composites this holds of every horizontal or vertical group of the tree; and
in Scenario A (three horizontal leaves with `min_size` 50, 50, 50, weights
1, 1, 2, outer width 400) the children receive the widths 112, 112 and 176,
which sum to 400. -/
theorem region_pass_conservation (env : LayoutEnv) (t : LayerGroup) (r : Rect) :
    (∀ ax : Axis, t.isComposite = true → t.grouping.primaryAxis = some ax →
      ((computeLayoutRegion env t r).children.map (LayerGroup.assignedExtent ax)).sum =
          (computeLayoutRegion env t r).assignedExtent ax ∧
        (computeLayoutRegion env t r).assignedExtent ax = Rect.extent ax r) ∧
    (t.wellFormed → ∀ (p : List Nat) (n2 : LayerGroup) (ax : Axis),
      nodeAt p (computeLayoutRegion env t r) = some n2 → n2.isComposite = true →
      n2.grouping.primaryAxis = some ax →
      (n2.children.map (LayerGroup.assignedExtent ax)).sum = n2.assignedExtent ax) ∧
    (∃ t2, computeLayoutConstraints scenarioEnv scenarioTree = Except.ok t2 ∧
      (computeLayoutRegion scenarioEnv t2 scenarioRegion).children.map
          (LayerGroup.assignedExtent Axis.x) = [112, 112, 176] ∧
      (112 : Int) + 112 + 176 = 400 ∧ Rect.extent Axis.x scenarioRegion = 400) := by
  refine ⟨?_, ?_, ⟨_, rfl, by decide!, by decide, by decide⟩⟩
  · intro ax hc hax
    exact ⟨computeLayoutRegion_conservation_root env t r ax hc hax,
      computeLayoutRegion_assignedExtent env ax t r⟩
  · intro hwf p n2 ax hn hc hax
    obtain ⟨n, r2, _, hn2⟩ := nodeAt_computeLayoutRegion env p t r n2 hwf hn
    subst hn2
    obtain ⟨h1, h2⟩ := computeLayoutRegion_isComposite env n r2
    rw [h1] at hc
    rw [h2] at hax
    exact computeLayoutRegion_conservation_root env n r2 ax hc hax

theorem region_pass_conservation_witness :
    ((computeLayoutRegion scenarioEnv scenarioTree scenarioRegion).children.map
        (LayerGroup.assignedExtent Axis.x)).sum =
      (computeLayoutRegion scenarioEnv scenarioTree scenarioRegion).assignedExtent Axis.x ∧
    (computeLayoutRegion scenarioEnv scenarioTree scenarioRegion).assignedExtent Axis.x =
      Rect.extent Axis.x scenarioRegion :=
  (region_pass_conservation scenarioEnv scenarioTree scenarioRegion).1 Axis.x rfl rfl

/-- C15 (ConstraintPass aggregation and idempotence): `computeLayoutConstraints`
returns a tree whenever the children of every flex group share one aspect
ratio; in the tree it returns, every horizontal or vertical Composite has
`min_pix` equal to the sum of its children's `min_pix` on the primary axis and
to the maximum of its children's `min_pix` on the cross axis, and `parts` on
the primary axis equal to the sum of its children's `parts`; and a second run
on that tree returns the same tree, so every node's `min_pix` and `parts` are
identical. -/
theorem constraint_pass_hv_aggregation (env : LayoutEnv) (t : LayerGroup) :
    ((∀ n ∈ t.nodes, n.layer = none → n.grouping = Grouping.flex →
        aspectConsistent n.children = true) →
      ∃ t2, computeLayoutConstraints env t = Except.ok t2) ∧
    (∀ t2, computeLayoutConstraints env t = Except.ok t2 →
      (∀ (p : List Nat) (n2 : LayerGroup) (ax : Axis), nodeAt p t2 = some n2 →
        n2.isComposite = true → n2.grouping.primaryAxis = some ax →
        ax.get n2.cached_.min_pix =
            (n2.children.map (fun c => ax.get c.cached_.min_pix)).sum ∧
          (∀ c ∈ n2.children,
            ax.cross.get c.cached_.min_pix ≤ ax.cross.get n2.cached_.min_pix) ∧
          (∃ c ∈ n2.children,
            ax.cross.get c.cached_.min_pix = ax.cross.get n2.cached_.min_pix) ∧
          ax.get n2.cached_.parts =
            Double.sum env.rnd (n2.children.map (fun c => ax.get c.cached_.parts))) ∧
      computeLayoutConstraints env t2 = Except.ok t2) := by
  refine ⟨computeLayoutConstraints_ok env t, ?_⟩
  intro t2 h
  refine ⟨?_, computeLayoutConstraints_idem env t t2 h⟩
  intro p n2 ax hn hc hax
  obtain ⟨n, _, hpass⟩ := nodeAt_computeLayoutConstraints env p t t2 n2 h hn
  have hl : n2.layer = none := by
    cases hlay : n2.layer with
    | none => rfl
    | some a => simp [LayerGroup.isComposite, hlay] at hc
  have hne : n2.children ≠ [] := by
    intro hnil
    simp [LayerGroup.isComposite, hnil] at hc
  obtain ⟨hmin, hparts⟩ := computeLayoutConstraints_hv env n n2 ax hpass hl hax
  rw [hmin, hparts]
  simp only [hvConstraints, Axis.get_pair, Axis.cross_get_pair]
  refine ⟨trivial, ?_, ?_, trivial⟩
  · intro c hc2
    exact le_maxInts _ _ (List.mem_map_of_mem _ hc2)
  · have hmem := maxInts_mem (n2.children.map (fun c => ax.cross.get c.cached_.min_pix))
      (by simpa using hne)
    obtain ⟨c, hc2, hceq⟩ := List.mem_map.mp hmem
    exact ⟨c, hc2, hceq⟩

theorem constraint_pass_hv_aggregation_witness :
    (∃ t2, computeLayoutConstraints scenarioEnv scenarioTree = Except.ok t2) ∧
    (∃ t2, computeLayoutConstraints scenarioEnv scenarioTree = Except.ok t2 ∧
      computeLayoutConstraints scenarioEnv t2 = Except.ok t2 ∧
      Axis.x.get t2.cached_.min_pix = 150) :=
  ⟨(constraint_pass_hv_aggregation scenarioEnv scenarioTree).1 (by decide),
    ⟨_, rfl, ((constraint_pass_hv_aggregation scenarioEnv scenarioTree).2 _ rfl).2,
      (((constraint_pass_hv_aggregation scenarioEnv scenarioTree).2 _ rfl).1 [] _ Axis.x
        rfl rfl rfl).1⟩⟩

end Pangolin
